import Mathlib

/-!
Verification of the GANDALF SPH-tree subsystem (smhr/gandalf snapshot).

Shallow embedding of the relevant routines of `src/src/SphTree.cpp`,
`src/SphSimulation.cpp` and `src/Parameters.cpp`.  Machine floating-point
values (`FLOAT`) are modelled by rationals `ℚ`; C++ `int` indices that use the
sentinel value `-1` are modelled by `ℤ`; fallible routines (those that call
`ExceptionHandler::getIstance().raise`, or whose `assert` guards an integrity
condition) return `Except GErr`.  Raw byte buffers are modelled at record
granularity: each `copy` of one C++ record into the byte stream becomes one
list element.
-/

/-- Error conditions raised by the modelled code (the C++ side raises string
messages through `ExceptionHandler`; an inductive stands in for the message). -/
inductive GErr where
  | ghostMemory            -- "Not enough memory for ghost particles"
  | importParticleMemory   -- "Error while receiving imported particles: not enough memory!"
  | importCellMemory       -- "Error while receiving imported cells: not enough memory!"
  | iorigMismatch          -- failed integrity assertion sphdata[j].iorig == received->iorig
deriving DecidableEq, Repr

/-- Three-component vector of rationals, modelling `FLOAT[ndim]` at the
compiled dimension `ndim = 3`. -/
structure Vec3 where
  x : ℚ
  y : ℚ
  z : ℚ
deriving DecidableEq, Repr

/-- Componentwise sum, modelling `for (k=0; k<ndim; k++) a[k] += b[k]`. -/
def vadd (a b : Vec3) : Vec3 := ⟨a.x + b.x, a.y + b.y, a.z + b.z⟩

/-! ## Tree build / stock / extrapolate dispatch (`SphTree::BuildTree`) -/

/-- The three mutually exclusive operations `SphTree::BuildTree` can perform on
one call (rebuild from scratch, full re-stock, bounds extrapolation). -/
inductive TreeOp where
  | rebuild
  | stock
  | extrapolate
deriving DecidableEq, Repr

/-- Dispatch logic of `SphTree::BuildTree` (SphTree.cpp, the
`if (n%ntreebuildstep == 0 || rebuild_tree) ... else if (n%ntreestockstep == 0)
... else ...` chain): which of the three tree operations runs at step `n`. -/
def buildTreeOp (n ntreebuildstep ntreestockstep : ℕ) (rebuild_tree : Bool) : TreeOp :=
  if n % ntreebuildstep = 0 ∨ rebuild_tree = true then TreeOp.rebuild
  else if n % ntreestockstep = 0 then TreeOp.stock
  else TreeOp.extrapolate

/-! ## Parameters::SetParameter -/

/-- The three parameter maps of the `Parameters` class (`std::map` keyed by
`std::string`), modelled as partial maps. -/
structure ParamsM where
  intparams : String → Option ℤ
  floatparams : String → Option ℚ
  stringparams : String → Option String

/-- `Parameters::SetParameter` (Parameters.cpp).  The key is looked up in the
integer map, then the float map, then the string map (`count(key) == 1`); the
first map containing it has that entry overwritten with the parsed value;
a key found in none of the maps produces a warning (`Bool` result `true`) and
changes nothing.  `parseI`/`parseF` stand for `std::stringstream` extraction,
which is outside this file's scope. -/
def setParameter (parseI : String → ℤ) (parseF : String → ℚ)
    (p : ParamsM) (key value : String) : ParamsM × Bool :=
  match p.intparams key with
  | some _ =>
      ({ p with intparams := fun k => if k = key then some (parseI value) else p.intparams k },
       false)
  | none =>
    match p.floatparams key with
    | some _ =>
        ({ p with floatparams := fun k => if k = key then some (parseF value) else p.floatparams k },
         false)
    | none =>
      match p.stringparams key with
      | some _ =>
          ({ p with stringparams := fun k => if k = key then some value else p.stringparams k },
           false)
      | none => (p, true)

/-! ## SphTree::FindLoadBalancingDivision -/

/-- Convergence tolerance `worktol = 0.001` of
`SphTree::FindLoadBalancingDivision`. -/
def worktol : ℚ := 1 / 1000

/-- The work-accumulation loop of `SphTree::FindLoadBalancingDivision`:
`workleft = 0.0; workright = 0.0; for (int i=0; i<leftnodes.size(); i++)
{ int inode = leftnodes[i]; }`.  The body binds the node id and does nothing
else; `nodework` is the per-node work the routine would have consulted.  The
result is the pair `(workleft, workright)`. -/
def accumulateWork (leftnodes : List ℕ) (nodework : ℕ → ℚ) : ℚ × ℚ :=
  leftnodes.foldl (fun acc inode => acc) ((0 : ℚ), (0 : ℚ))

/-- Mutable state of the division-search loop: `r_divide`, `r_min`, `r_max`. -/
structure FlbdState where
  r_divide : ℚ
  r_min : ℚ
  r_max : ℚ
deriving DecidableEq, Repr

/-- One iteration of the `do { ... } while (fabs(workfrac - 0.5) < worktol)`
loop of `SphTree::FindLoadBalancingDivision`.  `Sum.inl r` models leaving the
loop (by `break` or by the `while` condition failing) with return value `r`;
`Sum.inr` continues.  Division by a zero denominator yields `0` in `ℚ` (the
C++ `FLOAT` quotient `0.0/0.0` is NaN; under either convention every
comparison branch below is decided without reading any node's work). -/
def flbdIter (leftnodes : List ℕ) (nodework : ℕ → ℚ) (st : FlbdState) :
    ℚ ⊕ FlbdState :=
  let wl := (accumulateWork leftnodes nodework).1
  let wr := (accumulateWork leftnodes nodework).2
  let workfrac := wl / (wl + wr)
  if workfrac < 1/2 - worktol then
    let st1 : FlbdState := { st with r_min := st.r_divide }
    let st2 : FlbdState := { st1 with r_divide := (st1.r_min + st1.r_max) / 2 }
    if |workfrac - 1/2| < worktol then Sum.inr st2 else Sum.inl st2.r_divide
  else if workfrac > 1/2 + worktol then
    let st1 : FlbdState := { st with r_max := st.r_divide }
    let st2 : FlbdState := { st1 with r_divide := (st1.r_min + st1.r_max) / 2 }
    if |workfrac - 1/2| < worktol then Sum.inr st2 else Sum.inl st2.r_divide
  else
    Sum.inl st.r_divide

/-- Fuel-bounded runner for the division-search loop (the C++ loop has no
intrinsic bound; one unit of fuel per iteration). -/
def flbdLoop (leftnodes : List ℕ) (nodework : ℕ → ℚ) :
    ℕ → FlbdState → ℚ
  | 0, st => st.r_divide
  | fuel + 1, st =>
    match flbdIter leftnodes nodework st with
    | Sum.inl r => r
    | Sum.inr st' => flbdLoop leftnodes nodework fuel st'

/-- `SphTree::FindLoadBalancingDivision` (SphTree.cpp): initialises
`r_divide = r_old`, `r_min = bbmin[k_divide]`, `r_max = bbmax[k_divide]` and
runs the convergence loop.  `nodework` models the work information of the MPI
nodes (`mpinode`) that the loop was meant to accumulate. -/
def findLoadBalancingDivision (k_divide : Fin 3) (r_old : ℚ)
    (bbmin bbmax : Fin 3 → ℚ) (leftnodes : List ℕ) (nodework : ℕ → ℚ)
    (fuel : ℕ) : ℚ :=
  flbdLoop leftnodes nodework fuel
    { r_divide := r_old, r_min := bbmin k_divide, r_max := bbmax k_divide }

/-! ## Particle and tree-cell records

`SphParticle.h` is not part of this snapshot; the record is assembled from the
spec's Particle data model ("position, velocity, acceleration (hydro and
gravity components ...), smoothing length, mass, density, internal energy and
its time-derivative, potential, ... a stable origin identifier") and from the
fields `SphTree.cpp` reads and writes (`a`, `agrav`, `gpot`, `gpe`, `dudt`,
`div_v`, `levelneib`, `iorig`, `active`, `m`, `invh`, `r`, `v`, `h`). -/

/-- One SPH particle record (`ParticleType<ndim>` at `ndim = 3`). -/
structure PartM where
  r : Vec3          -- position
  v : Vec3          -- velocity
  m : ℚ             -- mass
  h : ℚ             -- smoothing length
  invh : ℚ          -- 1/h
  rho : ℚ           -- density
  u : ℚ             -- internal energy
  dudt : ℚ          -- internal-energy time derivative
  a : Vec3          -- total acceleration
  agrav : Vec3      -- gravitational acceleration component
  gpot : ℚ          -- gravitational potential
  gpe : ℚ           -- gravitational potential energy
  div_v : ℚ         -- velocity divergence
  levelneib : ℕ     -- maximum neighbour timestep level
  level : ℕ         -- timestep level
  iorig : ℕ         -- stable origin identifier
  active : Bool     -- active-this-step flag
deriving DecidableEq, Repr

/-- One tree-cell record (`TreeCell<ndim>` at `ndim = 3`), carrying the fields
`SphTree.cpp` uses: hierarchy `level`, particle count `N`, active count
`Nactive`, first/last particle indices (`-1` sentinel possible, hence `ℤ`),
the skip pointer `cnext`, bounding box `bbmin`/`bbmax`, cell velocity `v` and
maximum smoothing length `hmax`. -/
structure TCell where
  level : ℕ
  N : ℕ
  Nactive : ℕ
  ifirst : ℤ
  ilast : ℤ
  cnext : ℕ
  bbmin : Vec3
  bbmax : Vec3
  v : Vec3
  hmax : ℚ
deriving DecidableEq, Repr

/-- Component of a `Vec3` along spatial axis `k` (the C++ `x[k]` access for
`k = 0, 1, 2`). -/
def vcomp (a : Vec3) : Fin 3 → ℚ
  | 0 => a.x
  | 1 => a.y
  | 2 => a.z

/-! ## SphTree::SearchBoundaryGhostParticles -/

/-- Spatial axis tag for the three ghost passes. -/
inductive Axis where
  | ax
  | ay
  | az
deriving DecidableEq, Repr

/-- Simulation box of `SearchBoundaryGhostParticles`: per-axis boundary kind
strings (the code compares against the literal `"open"`) and box extents. -/
structure SimBoxM where
  x_boundary_lhs : String
  x_boundary_rhs : String
  y_boundary_lhs : String
  y_boundary_rhs : String
  z_boundary_lhs : String
  z_boundary_rhs : String
  boxmin : Vec3
  boxmax : Vec3

/-- The all-open early-return test of `SearchBoundaryGhostParticles`. -/
def allOpen (b : SimBoxM) : Prop :=
  b.x_boundary_lhs = "open" ∧ b.x_boundary_rhs = "open" ∧
  b.y_boundary_lhs = "open" ∧ b.y_boundary_rhs = "open" ∧
  b.z_boundary_lhs = "open" ∧ b.z_boundary_rhs = "open"

instance (b : SimBoxM) : Decidable (allOpen b) := by
  unfold allOpen; infer_instance

/-- The KD tree as `SearchBoundaryGhostParticles` reads it: cell count, leaf
level `ltot`, cell array and the `inext` next-particle linked list (modelled
as a total map on `ℤ`; `-1` is the chain terminator). -/
structure KDTreeM where
  Ncell : ℕ
  ltot : ℕ
  celldata : ℕ → TCell
  inext : ℤ → ℤ

/-- Ghost-search state: the particle counters of the `Sph` object, plus an
instrumentation `trace` recording, in order, every boundary-ghost check the
routine applies (`(axis, particle index)` per call of
`Check{X,Y,Z}BoundaryGhostParticle`). -/
structure GState where
  Nsph : ℕ
  Nsphmax : ℕ
  Nghost : ℕ
  NPeriodicGhost : ℕ
  Nmpighost : ℕ
  Nghostmax : ℕ
  Ntot : ℕ
  trace : List (Axis × ℤ)
deriving DecidableEq, Repr

/-- `Sph::Check{X,Y,Z}BoundaryGhostParticle` is not part of this snapshot.
Modelled from the spec: the check inspects particle `i` against the boundary
and "creates/refreshes its periodic or mirror image", appending any images
after the existing particles and incrementing the running `Nghost` count; it
does not touch `Nsph` or `Ntot`.  `nNew a s i` is the number of ghost images
the check creates (0, 1 or 2, depending on which boundaries particle `i` is
near); the trace records the application. -/
def applyCheck (nNew : Axis → GState → ℤ → ℕ) (aa : Axis) (s : GState) (i : ℤ) : GState :=
  { s with Nghost := s.Nghost + nNew aa s i, trace := s.trace ++ [(aa, i)] }

/-- The cell-opening test of each pass of `SearchBoundaryGhostParticles`:
does the cell's (velocity-inflated, `hmax`-expanded) bounding box along axis
`k` overlap the edge of the domain?  Translates
`cellptr->bbmin[k] + min(0,cellptr->v[k]*tghost) <
 simbox.boxmin[k] + grange*cellptr->hmax ||
 cellptr->bbmax[k] + max(0,cellptr->v[k]*tghost) >
 simbox.boxmax[k] - grange*cellptr->hmax`. -/
def cellNearBoundary (k : Fin 3) (tghost grange : ℚ) (box : SimBoxM) (cell : TCell) : Prop :=
  vcomp cell.bbmin k + min 0 (vcomp cell.v k * tghost) <
      vcomp box.boxmin k + grange * cell.hmax ∨
  vcomp cell.bbmax k + max 0 (vcomp cell.v k * tghost) >
      vcomp box.boxmax k - grange * cell.hmax

instance (k : Fin 3) (tghost grange : ℚ) (box : SimBoxM) (cell : TCell) :
    Decidable (cellNearBoundary k tghost grange box cell) := by
  unfold cellNearBoundary; infer_instance

/-- The leaf-cell particle loop of a ghost pass:
`i = cellptr->ifirst; while (i != -1) { check(i); if (i == cellptr->ilast)
break; i = tree->inext[i]; }`.  Fuel-bounded (the chain of a well-formed tree
is finite; fuel only caps the number of steps). -/
def leafScan (nNew : Axis → GState → ℤ → ℕ) (aa : Axis) (t : KDTreeM) (ilast : ℤ) :
    ℕ → ℤ → GState → GState
  | 0, _, s => s
  | fuel + 1, i, s =>
    if i = -1 then s
    else
      let s' := applyCheck nNew aa s i
      if i = ilast then s'
      else leafScan nNew aa t ilast fuel (t.inext i) s'

/-- The tree walk of one ghost pass of `SearchBoundaryGhostParticles`
(`while (c < tree->Ncell) {...}`): a cell overlapping the boundary is opened
(`c++` for internal cells), scanned particle-by-particle (leaf cells), or
skipped whole via `cnext`.  Fuel-bounded (for a well-formed tree `cnext > c`,
so the walk terminates in at most `Ncell` steps). -/
def ghostWalk (nNew : Axis → GState → ℤ → ℕ) (aa : Axis) (k : Fin 3)
    (tghost grange : ℚ) (box : SimBoxM) (t : KDTreeM) :
    ℕ → ℕ → GState → GState
  | 0, _, s => s
  | fuel + 1, c, s =>
    if c < t.Ncell then
      let cell := t.celldata c
      if cellNearBoundary k tghost grange box cell then
        if cell.level ≠ t.ltot then
          ghostWalk nNew aa k tghost grange box t fuel (c + 1) s
        else if cell.N = 0 then
          ghostWalk nNew aa k tghost grange box t fuel cell.cnext s
        else
          ghostWalk nNew aa k tghost grange box t fuel cell.cnext
            (leafScan nNew aa t cell.ilast fuel cell.ifirst s)
      else
        ghostWalk nNew aa k tghost grange box t fuel cell.cnext s
    else s

/-- The direct-sum scan over previously created ghosts
(`for (i=sph->Nsph; i<sph->Ntot; i++) sph->Check?BoundaryGhostParticle(...)`).
The loop condition re-reads `sph->Ntot` each iteration; the checks leave
`Ntot` unchanged, so the loop covers exactly the indices `[i0, Ntot)`. -/
def directGhostScan (nNew : Axis → GState → ℤ → ℕ) (aa : Axis) (i : ℕ) (s : GState) : GState :=
  if h : i < s.Ntot then
    directGhostScan nNew aa (i + 1) (applyCheck nNew aa s (i : ℤ))
  else s
termination_by s.Ntot - i
decreasing_by simp only [applyCheck]; omega

/-- The x-axis block of `SearchBoundaryGhostParticles`: guarded by
`(simbox.x_boundary_lhs == "open" && simbox.x_boundary_rhs == "open") == 0`,
it walks the tree applying `CheckXBoundaryGhostParticle` and then updates
`sph->Ntot = sph->Nsph + sph->Nghost`. -/
def xPassGhost (nNew : Axis → GState → ℤ → ℕ) (tghost grange : ℚ)
    (box : SimBoxM) (t : KDTreeM) (fuel : ℕ) (s : GState) : GState :=
  if ¬(box.x_boundary_lhs = "open" ∧ box.x_boundary_rhs = "open") then
    let sw := ghostWalk nNew Axis.ax 0 tghost grange box t fuel 0 s
    { sw with Ntot := sw.Nsph + sw.Nghost }
  else s

/-- The y-axis block of `SearchBoundaryGhostParticles`: guarded by
`ndim >= 2` and the y boundaries not both open; after the tree walk it also
checks the ghosts created so far by direct sum
(`for (i=sph->Nsph; i<sph->Ntot; i++) sph->CheckYBoundaryGhostParticle(...)`)
and then updates `sph->Ntot`. -/
def yPassGhost (ndim : ℕ) (nNew : Axis → GState → ℤ → ℕ) (tghost grange : ℚ)
    (box : SimBoxM) (t : KDTreeM) (fuel : ℕ) (s : GState) : GState :=
  if 2 ≤ ndim ∧ ¬(box.y_boundary_lhs = "open" ∧ box.y_boundary_rhs = "open") then
    let sw := ghostWalk nNew Axis.ay 1 tghost grange box t fuel 0 s
    let sd := directGhostScan nNew Axis.ay sw.Nsph sw
    { sd with Ntot := sd.Nsph + sd.Nghost }
  else s

/-- The z-axis block of `SearchBoundaryGhostParticles`: guarded by
`ndim == 3` and the z boundaries not both open; after the tree walk it also
checks the x- and y-ghosts created so far by direct sum and then updates
`sph->Ntot`. -/
def zPassGhost (ndim : ℕ) (nNew : Axis → GState → ℤ → ℕ) (tghost grange : ℚ)
    (box : SimBoxM) (t : KDTreeM) (fuel : ℕ) (s : GState) : GState :=
  if ndim = 3 ∧ ¬(box.z_boundary_lhs = "open" ∧ box.z_boundary_rhs = "open") then
    let sw := ghostWalk nNew Axis.az 2 tghost grange box t fuel 0 s
    let sd := directGhostScan nNew Axis.az sw.Nsph sw
    { sd with Ntot := sd.Nsph + sd.Nghost }
  else s

/-- Counter reset at the top of `SearchBoundaryGhostParticles`:
`sph->Nghost = 0; sph->NPeriodicGhost = 0; sph->Nmpighost = 0;
sph->Nghostmax = sph->Nsphmax - sph->Nsph; sph->Ntot = sph->Nsph;`
(the instrumentation trace starts empty). -/
def sbgpInit (s0 : GState) : GState :=
  { s0 with Nghost := 0, NPeriodicGhost := 0, Nmpighost := 0,
            Nghostmax := s0.Nsphmax - s0.Nsph, Ntot := s0.Nsph, trace := [] }

/-- The ghost-generation body of `SearchBoundaryGhostParticles`: the x, y and
z blocks run in this fixed order. -/
def sbgpPasses (ndim : ℕ) (nNew : Axis → GState → ℤ → ℕ) (tghost grange : ℚ)
    (box : SimBoxM) (t : KDTreeM) (fuel : ℕ) (s0 : GState) : GState :=
  zPassGhost ndim nNew tghost grange box t fuel
    (yPassGhost ndim nNew tghost grange box t fuel
      (xPassGhost nNew tghost grange box t fuel (sbgpInit s0)))

/-- `SphTree::SearchBoundaryGhostParticles` (SphTree.cpp): reset the ghost
counters; return immediately if all six boundaries are open; otherwise run
the x, y, z ghost passes; raise "Not enough memory for ghost particles" if
`sph->Ntot > sph->Nsphmax`; finally set `sph->NPeriodicGhost = sph->Nghost`.
`grange = ghost_range*kernrange` is passed already multiplied out. -/
def searchBoundaryGhostParticles (ndim : ℕ) (nNew : Axis → GState → ℤ → ℕ)
    (tghost grange : ℚ) (box : SimBoxM) (t : KDTreeM) (fuel : ℕ)
    (s0 : GState) : Except GErr GState :=
  if allOpen box then Except.ok (sbgpInit s0)
  else
    let s3 := sbgpPasses ndim nNew tghost grange box t fuel s0
    if s3.Nsphmax < s3.Ntot then Except.error GErr.ghostMemory
    else Except.ok { s3 with NPeriodicGhost := s3.Nghost }

/-- Well-formedness of the next-particle linked list over the real (non-ghost)
particles: every leaf's `ifirst` and every `inext` link is either the `-1`
terminator or the index of a real particle (`0 ≤ i < Nsph`).  The tree is
built over the `Nsph` real particles only, so its chains never mention
ghosts. -/
def treeIndicesValid (t : KDTreeM) (Nsph : ℕ) : Prop :=
  (∀ c, (t.celldata c).ifirst = -1 ∨
        (0 ≤ (t.celldata c).ifirst ∧ (t.celldata c).ifirst < (Nsph : ℤ))) ∧
  (∀ i : ℤ, t.inext i = -1 ∨ (0 ≤ t.inext i ∧ t.inext i < (Nsph : ℤ)))

/-! ## The force-update pass of SphSimulation::Setup and SphSimulation::MainLoop -/

/-- The acceleration-zeroing loop of the force-update pass
(`for (i=0; i<Nsph; i++) { a[k]=0; agrav[k]=0; gpot=0; dudt=0; }`). -/
def zeroAccel (p : PartM) : PartM :=
  { p with a := ⟨0, 0, 0⟩, agrav := ⟨0, 0, 0⟩, gpot := 0, dudt := 0 }

/-- Modelled from the spec: `SphNeighbourSearch::UpdateAllSphForces` (not in
this snapshot) computes hydrodynamic forces, accumulating each particle's
hydro acceleration into `a` and its heating rate into `dudt`; `hyd i` /
`duh i` are particle `i`'s hydro contributions. -/
def applyHydroForces (hyd : ℕ → Vec3) (duh : ℕ → ℚ) (ps : List PartM) : List PartM :=
  ps.mapIdx fun i p => { p with a := vadd p.a (hyd i), dudt := p.dudt + duh i }

/-- Modelled from the spec: `SphNeighbourSearch::UpdateAllGravityForces` (not
in this snapshot) accumulates each particle's gravitational acceleration into
the separate `agrav` component and its potential into `gpot`. -/
def applyGravityForces (grav : ℕ → Vec3) (pot : ℕ → ℚ) (ps : List PartM) : List PartM :=
  ps.mapIdx fun i p => { p with agrav := vadd p.agrav (grav i), gpot := p.gpot + pot i }

/-- The final loop of the force-update pass, from SphSimulation.cpp (comment
`// Add accelerations`):
`for (i=0; i<Nsph; i++) for (k=0; k<ndim; k++) a[k] = agrav[k];`
— note the assignment: `a` is overwritten with `agrav`, it is not summed. -/
def addAccelerations (ps : List PartM) : List PartM :=
  ps.map fun p => { p with a := p.agrav }

/-- The force-update pass over the particle array, identical in
`SphSimulation::Setup` and `SphSimulation::MainLoop`: zero the accumulators,
run hydro forces if `intparams["hydro_forces"] == 1`, run gravity if
`intparams["self_gravity"] == 1`, then run the `// Add accelerations` loop. -/
def forceUpdatePass (hydro_forces self_gravity : ℤ) (hyd : ℕ → Vec3)
    (duh : ℕ → ℚ) (grav : ℕ → Vec3) (pot : ℕ → ℚ) (ps : List PartM) : List PartM :=
  let ps0 := ps.map zeroAccel
  let ps1 := if hydro_forces = 1 then applyHydroForces hyd duh ps0 else ps0
  let ps2 := if self_gravity = 1 then applyGravityForces grav pot ps1 else ps1
  addAccelerations ps2

/-! ## SphTree::GetExportInfo (wire layout) -/

/-- One record written to the flat export byte buffer (modelled at record
granularity: one C++ `copy` of an `int`, a `TreeCell` or a `ParticleType`
becomes one item). -/
inductive BufItem where
  | intVal (n : ℤ)
  | cellRec (c : TCell)
  | partRec (p : PartM)
deriving DecidableEq, Repr

/-- The block `GetExportInfo` writes for one exported cell: the cell record
with `ifirst`/`ilast` rewritten to the running count of particles exported so
far (`exported_particles` and `exported_particles + Nactive_cell - 1`),
followed by that cell's active particles (`ComputeActiveParticleList`,
modelled by `activeOf`). -/
def exportCellBlock (sphdata : ℕ → PartM) (activeOf : TCell → List ℕ)
    (exported : ℕ) (cell : TCell) : List BufItem :=
  BufItem.cellRec { cell with ifirst := (exported : ℤ),
                              ilast := (exported : ℤ) + (activeOf cell).length - 1 } ::
    (activeOf cell).map (fun i => BufItem.partRec (sphdata i))

/-- The cell loop of `GetExportInfo`: for each cell in `cellexportlist`, the
cell record is written and then, immediately, that cell's active particles;
`exported` threads the `exported_particles` counter. -/
def exportBody (sphdata : ℕ → PartM) (activeOf : TCell → List ℕ) :
    List TCell → ℕ → List BufItem
  | [], _ => []
  | cell :: rest, exported =>
      exportCellBlock sphdata activeOf exported cell ++
        exportBody sphdata activeOf rest (exported + (activeOf cell).length)

/-- `SphTree::GetExportInfo` (SphTree.cpp): the message for one destination
processor.  Header: `Nactive` (`Npartexport[Nproc]`), then `cactive` (the
cell count); body: the cell loop above.  The function's byte-offset
arithmetic is subsumed by list concatenation. -/
def getExportInfo (sphdata : ℕ → PartM) (activeOf : TCell → List ℕ)
    (Nactive : ℕ) (celllist : List TCell) : List BufItem :=
  BufItem.intVal (Nactive : ℤ) :: BufItem.intVal (celllist.length : ℤ) ::
    exportBody sphdata activeOf celllist 0

/-- The `ids_sent_particles[Nproc]` bookkeeping that `GetExportInfo` records:
the local index of every particle sent, in message order. -/
def idsSentParticles (activeOf : TCell → List ℕ) (celllist : List TCell) : List ℕ :=
  (celllist.map activeOf).flatten

/-- Total number of active particles over a list of export cells. -/
def activeTotal (activeOf : TCell → List ℕ) (celllist : List TCell) : ℕ :=
  (celllist.map (fun c => (activeOf c).length)).sum

/-- The wire layout the spec's §6 contract describes, word for word:
`[int32 particleCount][int32 cellCount][cellCount × CellRecord]
[particleCount × ParticleRecord]` — all cell records first, then all particle
records. -/
def claimedExportLayout (Np Nc : ℕ) (cells : List TCell) (parts : List PartM) :
    List BufItem :=
  BufItem.intVal (Np : ℤ) :: BufItem.intVal (Nc : ℤ) ::
    (cells.map BufItem.cellRec ++ parts.map BufItem.partRec)

/-! ## Distributed import/export bookkeeping
(`SphTree::UnpackExported`, `SphTree::GetBackExportInfo`) -/

/-- The particle, cell and bookkeeping state the distributed layer mutates:
the `Sph` counters (`Nsph`, `Nghost`, `Nsphmax`, `Ntot`,
`NImportedParticles`), the tree counters (`Ncell`, `Ncellmax`, `Ncelltot`,
`Nimportedcell`, tree `Ntot`), the particle and cell arrays (total maps) with
the `inext` linked list, and `N_imported_part_per_proc`. -/
structure MpiSt where
  Nsph : ℕ
  Nghost : ℕ
  Nsphmax : ℕ
  Ntot : ℕ
  NImportedParticles : ℕ
  Ncell : ℕ
  Ncellmax : ℕ
  Ncelltot : ℕ
  Nimportedcell : ℕ
  treeNtot : ℕ
  sphdata : ℕ → PartM
  celldata : ℕ → TCell
  inextA : ℕ → ℤ
  NimpPerProc : List ℕ

/-- One received export message, decoded at record granularity: the byte
count of the transfer (`Nbytes_exported_from_proc` entry; `0` means this peer
sent nothing), the two header ints (`N_received_particles`,
`N_received_cells`), and for each cell its record followed by its particle
records (`dest_cell.Nactive` of them; the sender wrote exactly that many). -/
structure RecvBuf where
  nbytes : ℕ
  Np : ℕ
  Nc : ℕ
  cells : List (TCell × List PartM)

/-- The per-cell particle copy of `UnpackExported`: each received particle is
stored at `particle_index` and the linked list is threaded
(`tree->inext[particle_index] = particle_index + 1`). -/
def storeImported : List PartM → ℕ → MpiSt → MpiSt
  | [], _, s => s
  | p :: ps, idx, s =>
      storeImported ps (idx + 1)
        { s with sphdata := fun n => if n = idx then p else s.sphdata n,
                 inextA := fun n => if n = idx then (idx : ℤ) + 1 else s.inextA n }

/-- The cell loop of `UnpackExported` for one peer: cell `icell` of the
message is stored at `celldata[icell + tree->Ncelltot]` with its
`ifirst`/`ilast` offset by the pre-copy `sph->Ntot`, and its particles are
stored from `particle_index` on.  `base` is `tree->Ncelltot` and `Ntot0` is
`sph->Ntot` at entry to the loop (neither counter moves until after it). -/
def unpackCells (Ntot0 base : ℕ) : List (TCell × List PartM) → ℕ → ℕ → MpiSt → MpiSt
  | [], _, _, s => s
  | (bc, ps) :: rest, icell, pidx, s =>
      let dest : TCell := { bc with ifirst := bc.ifirst + (Ntot0 : ℤ),
                                    ilast := bc.ilast + (Ntot0 : ℤ) }
      let s1 := { s with celldata := fun n => if n = base + icell then dest else s.celldata n }
      unpackCells Ntot0 base rest (icell + 1) (pidx + ps.length) (storeImported ps pidx s1)

/-- Processing of one peer's message inside `UnpackExported`: an empty
transfer just records `0`; otherwise `N_imported_part_per_proc[Nproc]` is
recorded, then the capacity checks run (particles first, then cells:
`sph->Ntot + N_received_particles > sph->Nsphmax` and
`tree->Ncelltot + N_received_cells > tree->Ncellmax` each raise), and only
then is the payload copied and are the counters advanced. -/
def unpackOne (s : MpiSt) (b : RecvBuf) : Except GErr MpiSt :=
  if b.nbytes = 0 then Except.ok { s with NimpPerProc := s.NimpPerProc ++ [0] }
  else
    let s0 := { s with NimpPerProc := s.NimpPerProc ++ [b.Np] }
    if s0.Nsphmax < s0.Ntot + b.Np then Except.error GErr.importParticleMemory
    else if s0.Ncellmax < s0.Ncelltot + b.Nc then Except.error GErr.importCellMemory
    else
      let s1 := unpackCells s0.Ntot s0.Ncelltot b.cells 0 s0.Ntot s0
      Except.ok { s1 with Ntot := s1.Ntot + b.Np,
                          NImportedParticles := s1.NImportedParticles + b.Np,
                          Nimportedcell := s1.Nimportedcell + b.Nc,
                          Ncelltot := s1.Ncelltot + b.Nc,
                          treeNtot := s1.Ntot + b.Np }

/-- `SphTree::UnpackExported` (SphTree.cpp): asserts no particles are already
imported, resets `tree->Nimportedcell = 0` and `tree->Ncelltot = tree->Ncell`,
rebuilds `N_imported_part_per_proc`, then processes each peer's message in
turn. -/
def unpackExported (s : MpiSt) (bufs : List RecvBuf) : Except GErr MpiSt :=
  let s0 := { s with Nimportedcell := 0, Ncelltot := s.Ncell, NimpPerProc := [] }
  bufs.foldlM unpackOne s0

/-- The peer loop of `SphTree::GetBackExportInfo`: for each peer, the
`N_received_particles` imported particles starting at
`sph->Nsph + sph->Nghost + removed_particles` are copied whole into the send
buffer (`copy(&send_buffer[...], &sphdata[i])` copies the entire
`ParticleType` record), and `sph->Ntot` and `sph->NImportedParticles` are
decremented. -/
def getBackLoop : List ℕ → ℕ → MpiSt → List PartM → MpiSt × List PartM
  | [], _, s, buf => (s, buf)
  | nrec :: rest, removed, s, buf =>
      getBackLoop rest (removed + nrec)
        { s with Ntot := s.Ntot - nrec,
                 NImportedParticles := s.NImportedParticles - nrec }
        (buf ++ (List.range nrec).map (fun j => s.sphdata (s.Nsph + s.Nghost + removed + j)))

/-- `SphTree::GetBackExportInfo` (SphTree.cpp): runs the peer loop, then
resets `tree->Ncelltot = tree->Ncell`, `tree->Nimportedcell = 0` and
`tree->Ntot -= InitialNImportedParticles`.  Returns the final state and the
return-message buffer.  (The `Nbytes_*` size bookkeeping is byte arithmetic
over `sizeof(ParticleType)` and is subsumed by the record counts.) -/
def getBackExportInfo (s : MpiSt) : MpiSt × List PartM :=
  let init := s.NImportedParticles
  let sb := getBackLoop s.NimpPerProc 0 s []
  ({ sb.1 with Ncelltot := sb.1.Ncell, Nimportedcell := 0,
               treeNtot := sb.1.treeNtot - init }, sb.2)

/-- Equality of the accumulation-relevant result fields of two particle
records — the subset the spec says return messages carry: acceleration,
gravitational acceleration, potential, gravitational potential energy,
energy derivative, velocity divergence, and the neighbour level. -/
def accumFieldsEq (p q : PartM) : Prop :=
  p.a = q.a ∧ p.agrav = q.agrav ∧ p.gpot = q.gpot ∧ p.gpe = q.gpe ∧
  p.dudt = q.dudt ∧ p.div_v = q.div_v ∧ p.levelneib = q.levelneib

instance (p q : PartM) : Decidable (accumFieldsEq p q) := by
  unfold accumFieldsEq; infer_instance

/-! ## SphTree::UnpackReturnedExportInfo -/

/-- The per-record reconciliation of `UnpackReturnedExportInfo`: the returned
accelerations, potentials, energy derivative and velocity divergence are
summed into the local particle, and the neighbour level is maximised:
`a[k] += ...; agrav[k] += ...; gpot += ...; gpe += ...; dudt += ...;
div_v += ...; levelneib = max(levelneib, ...)`. -/
def addReturned (p rec : PartM) : PartM :=
  { p with a := vadd p.a rec.a,
           agrav := vadd p.agrav rec.agrav,
           gpot := p.gpot + rec.gpot,
           gpe := p.gpe + rec.gpe,
           dudt := p.dudt + rec.dudt,
           div_v := p.div_v + rec.div_v,
           levelneib := max p.levelneib rec.levelneib }

/-- The inner loop of `UnpackReturnedExportInfo` for one peer: record `i` of
the peer's return message is matched with local particle
`j = ids_sent_particles[Nproc][i]`; a differing origin identifier
(`assert(sphdata[j].iorig == received_particle->iorig)`) is a fatal
integrity error.  (Under the protocol the message carries exactly one record
per remembered id; a shorter message simply ends the loop here.) -/
def unpackReturnedProc : List ℕ → List PartM → (ℕ → PartM) → Except GErr (ℕ → PartM)
  | [], _, d => Except.ok d
  | _ :: _, [], d => Except.ok d
  | j :: ids, rec :: recs, d =>
      if (d j).iorig = rec.iorig then
        unpackReturnedProc ids recs (fun n => if n = j then addReturned (d j) rec else d n)
      else Except.error GErr.iorigMismatch

/-- The peer loop of `UnpackReturnedExportInfo`: peers are processed in rank
order, skipping this process's own rank (`if (rank==Nproc) continue`).
`procs` pairs each peer's remembered ids (`ids_sent_particles[Nproc]`) with
its decoded return records (the `recv_displs[Nproc]` segment). -/
def unpackReturnedGo (rank : ℕ) :
    ℕ → List (List ℕ × List PartM) → (ℕ → PartM) → Except GErr (ℕ → PartM)
  | _, [], d => Except.ok d
  | nproc, pr :: rest, d =>
      if rank = nproc then unpackReturnedGo rank (nproc + 1) rest d
      else
        match unpackReturnedProc pr.1 pr.2 d with
        | Except.ok d' => unpackReturnedGo rank (nproc + 1) rest d'
        | Except.error e => Except.error e

/-- `SphTree::UnpackReturnedExportInfo` (SphTree.cpp). -/
def unpackReturnedExportInfo (rank : ℕ) (procs : List (List ℕ × List PartM))
    (d : ℕ → PartM) : Except GErr (ℕ → PartM) :=
  unpackReturnedGo rank 0 procs d

/-- All `(local index, returned record)` pairs the reconciliation visits, in
visiting order (peers in rank order, own rank skipped, records in message
order). -/
def returnedPairsGo (rank : ℕ) : ℕ → List (List ℕ × List PartM) → List (ℕ × PartM)
  | _, [] => []
  | nproc, pr :: rest =>
      (if rank = nproc then [] else pr.1.zip pr.2) ++ returnedPairsGo rank (nproc + 1) rest

/-- The visited pairs of a whole `UnpackReturnedExportInfo` call. -/
def returnedPairs (rank : ℕ) (procs : List (List ℕ × List PartM)) : List (ℕ × PartM) :=
  returnedPairsGo rank 0 procs

/-- Sequential application of visited pairs (the loop's net effect on the
particle array). -/
def applyPairs (d : ℕ → PartM) (L : List (ℕ × PartM)) : ℕ → PartM :=
  L.foldl (fun f pr => fun n => if n = pr.1 then addReturned (f pr.1) pr.2 else f n) d

/-- The return records reconciled into local particle `n`, in arrival order. -/
def recordsFor (rank : ℕ) (procs : List (List ℕ × List PartM)) (n : ℕ) : List PartM :=
  ((returnedPairs rank procs).filter (fun pr => pr.1 = n)).map Prod.snd

/-- A sample particle record used by the concrete evaluations below. -/
def pSample : PartM :=
  { r := ⟨0, 0, 0⟩, v := ⟨0, 0, 0⟩, m := 1, h := 1, invh := 1, rho := 1,
    u := 1, dudt := 0, a := ⟨0, 0, 0⟩, agrav := ⟨0, 0, 0⟩, gpot := 0,
    gpe := 0, div_v := 0, levelneib := 0, level := 0, iorig := 0,
    active := true }

/-- Default tree-cell record (for positional list access). -/
def dCell : TCell :=
  { level := 0, N := 0, Nactive := 0, ifirst := -1, ilast := -1, cnext := 0,
    bbmin := ⟨0, 0, 0⟩, bbmax := ⟨0, 0, 0⟩, v := ⟨0, 0, 0⟩, hmax := 0 }

/-- An export cell for the concrete layout evaluations: a leaf holding one
particle. -/
def cEx : TCell :=
  { level := 0, N := 1, Nactive := 1, ifirst := 0, ilast := 0, cnext := 1,
    bbmin := ⟨0, 0, 0⟩, bbmax := ⟨1, 1, 1⟩, v := ⟨0, 0, 0⟩, hmax := 1 }

/-- A distributed state with one imported particle, used by the concrete C6
evaluation. -/
def s6a : MpiSt :=
  { Nsph := 1, Nghost := 0, Nsphmax := 10, Ntot := 2, NImportedParticles := 1,
    Ncell := 1, Ncellmax := 10, Ncelltot := 1, Nimportedcell := 0,
    treeNtot := 2, sphdata := fun _ => pSample, celldata := fun _ => dCell,
    inextA := fun _ => -1, NimpPerProc := [1] }

/-- The same state with every particle's mass changed — all
accumulation-relevant result fields untouched. -/
def s6b : MpiSt := { s6a with sphdata := fun _ => { pSample with m := 2 } }

/-- An empty simulation box whose lower x boundary is periodic (so not all
boundaries are open). -/
def boxPX : SimBoxM :=
  { x_boundary_lhs := "periodic", x_boundary_rhs := "open",
    y_boundary_lhs := "open", y_boundary_rhs := "open",
    z_boundary_lhs := "open", z_boundary_rhs := "open",
    boxmin := ⟨0, 0, 0⟩, boxmax := ⟨1, 1, 1⟩ }

/-- A tree with no cells (its walk visits nothing). -/
def tEmpty : KDTreeM :=
  { Ncell := 0, ltot := 0, celldata := fun _ => dCell, inext := fun _ => -1 }

/-- A ghost-search state that already holds more particles than `Nsphmax`. -/
def gOver : GState :=
  { Nsph := 5, Nsphmax := 2, Nghost := 0, NPeriodicGhost := 0, Nmpighost := 0,
    Nghostmax := 0, Ntot := 5, trace := [] }

/-- A distributed state for the capacity evaluations. -/
def s7 : MpiSt :=
  { Nsph := 1, Nghost := 0, Nsphmax := 10, Ntot := 1, NImportedParticles := 0,
    Ncell := 1, Ncellmax := 10, Ncelltot := 1, Nimportedcell := 0,
    treeNtot := 1, sphdata := fun _ => pSample, celldata := fun _ => dCell,
    inextA := fun _ => -1, NimpPerProc := [] }

/-- `s7` after the entry reset of `UnpackExported` and no messages. -/
def s7r : MpiSt :=
  { s7 with Nimportedcell := 0, Ncelltot := s7.Ncell, NimpPerProc := [] }

/-- The trace of a direct-sum ghost scan of axis `aa` over the index range
`[i, i + len)`. -/
def scanTrace (aa : Axis) (i len : ℕ) : List (Axis × ℤ) :=
  (List.range' i len).map (fun n => (aa, Int.ofNat n))

/-- A box with all lower boundaries periodic. -/
def boxW : SimBoxM :=
  { x_boundary_lhs := "periodic", x_boundary_rhs := "open",
    y_boundary_lhs := "periodic", y_boundary_rhs := "open",
    z_boundary_lhs := "periodic", z_boundary_rhs := "open",
    boxmin := ⟨0, 0, 0⟩, boxmax := ⟨1, 1, 1⟩ }

/-- A leaf cell holding exactly particle `0`. -/
def cellW : TCell :=
  { level := 0, N := 1, Nactive := 1, ifirst := 0, ilast := 0, cnext := 1,
    bbmin := ⟨0, 0, 0⟩, bbmax := ⟨1, 1, 1⟩, v := ⟨0, 0, 0⟩, hmax := 1 }

/-- A one-leaf tree over one real particle. -/
def tW : KDTreeM :=
  { Ncell := 1, ltot := 0, celldata := fun _ => cellW, inext := fun _ => -1 }

/-- A ghost check that always creates one image. -/
def nW : Axis → GState → ℤ → ℕ := fun _ _ _ => 1

/-- A ghost-search starting state with one real particle. -/
def gW : GState :=
  { Nsph := 1, Nsphmax := 10, Nghost := 0, NPeriodicGhost := 0, Nmpighost := 0,
    Nghostmax := 0, Ntot := 1, trace := [] }

/-! # Theorems -/

/-- C5: On every call to `BuildTree` with step counter `n`, the tree is
rebuilt from scratch exactly when the rebuild flag is set or `n` is a
multiple of the tree-build cadence; otherwise it is fully re-stocked exactly
when `n` is a multiple of the stock cadence; on all remaining steps only the
cell properties are extrapolated.  Rebuild takes precedence over stock, which
takes precedence over extrapolation. -/
theorem buildTree_dispatch_c5 (n b s : ℕ) (r : Bool) :
    (buildTreeOp n b s r = TreeOp.rebuild ↔ (r = true ∨ b ∣ n)) ∧
    (buildTreeOp n b s r = TreeOp.stock ↔ (¬(r = true ∨ b ∣ n) ∧ s ∣ n)) ∧
    (buildTreeOp n b s r = TreeOp.extrapolate ↔ (¬(r = true ∨ b ∣ n) ∧ ¬s ∣ n)) := by
  unfold buildTreeOp
  by_cases hb : n % b = 0 <;> by_cases hs : n % s = 0 <;> by_cases hr : r = true <;>
    simp_all [Nat.dvd_iff_mod_eq_zero]

/-- C9: `Parameters::SetParameter` with a key present in none of the three
maps warns and leaves all three maps unchanged; a key present in one of them
updates exactly that key's entry in the first map containing it (integer,
then float, then string precedence) and nothing else, without warning. -/
theorem setParameter_maps_c9 (parseI : String → ℤ) (parseF : String → ℚ)
    (p : ParamsM) (key value : String) :
    (p.intparams key = none → p.floatparams key = none → p.stringparams key = none →
      setParameter parseI parseF p key value = (p, true)) ∧
    (∀ z, p.intparams key = some z →
      (setParameter parseI parseF p key value).2 = false ∧
      (setParameter parseI parseF p key value).1.intparams key = some (parseI value) ∧
      (∀ k, k ≠ key →
        (setParameter parseI parseF p key value).1.intparams k = p.intparams k) ∧
      (setParameter parseI parseF p key value).1.floatparams = p.floatparams ∧
      (setParameter parseI parseF p key value).1.stringparams = p.stringparams) ∧
    (∀ z, p.intparams key = none → p.floatparams key = some z →
      (setParameter parseI parseF p key value).2 = false ∧
      (setParameter parseI parseF p key value).1.floatparams key = some (parseF value) ∧
      (∀ k, k ≠ key →
        (setParameter parseI parseF p key value).1.floatparams k = p.floatparams k) ∧
      (setParameter parseI parseF p key value).1.intparams = p.intparams ∧
      (setParameter parseI parseF p key value).1.stringparams = p.stringparams) ∧
    (∀ z, p.intparams key = none → p.floatparams key = none →
        p.stringparams key = some z →
      (setParameter parseI parseF p key value).2 = false ∧
      (setParameter parseI parseF p key value).1.stringparams key = some value ∧
      (∀ k, k ≠ key →
        (setParameter parseI parseF p key value).1.stringparams k = p.stringparams k) ∧
      (setParameter parseI parseF p key value).1.intparams = p.intparams ∧
      (setParameter parseI parseF p key value).1.floatparams = p.floatparams) := by
  unfold setParameter
  refine ⟨?_, ?_, ?_, ?_⟩
  · intro h1 h2 h3; simp [h1, h2, h3]
  · intro z h1; simp [h1]
    intro k hk; simp [hk]
  · intro z h1 h2; simp [h1, h2]
    intro k hk; simp [hk]
  · intro z h1 h2 h3; simp [h1, h2, h3]
    intro k hk; simp [hk]

/-- C9 witness: concrete maps exercising both the unknown-key branch and the
integer-key branch. -/
theorem setParameter_maps_c9_witness :
    (setParameter (fun _ => (5 : ℤ)) (fun _ => (0 : ℚ))
      { intparams := fun k => if k = "Npart" then some 100 else none,
        floatparams := fun _ => none, stringparams := fun _ => none }
      "bogus_key" "7" =
      ({ intparams := fun k => if k = "Npart" then some 100 else none,
         floatparams := fun _ => none, stringparams := fun _ => none }, true)) ∧
    (setParameter (fun _ => (5 : ℤ)) (fun _ => (0 : ℚ))
      { intparams := fun k => if k = "Npart" then some 100 else none,
        floatparams := fun _ => none, stringparams := fun _ => none }
      "Npart" "5").1.intparams "Npart" = some 5 := by
  constructor
  · exact (setParameter_maps_c9 _ _ _ "bogus_key" "7").1 (by decide) rfl rfl
  · exact ((setParameter_maps_c9 (fun _ => (5 : ℤ)) (fun _ => (0 : ℚ))
      { intparams := fun k => if k = "Npart" then some 100 else none,
        floatparams := fun _ => none, stringparams := fun _ => none }
      "Npart" "5").2.1 100 (by decide)).2.1

/-- The work accumulators are never updated by the node loop. -/
theorem accumulateWork_eq_zero (leftnodes : List ℕ) (nodework : ℕ → ℚ) :
    accumulateWork leftnodes nodework = ((0 : ℚ), (0 : ℚ)) := by
  unfold accumulateWork
  induction leftnodes with
  | nil => rfl
  | cons a l ih => exact ih

/-- With zero accumulators the division iteration always leaves the loop at
once, bisecting towards `r_max`. -/
theorem flbdIter_eq (leftnodes : List ℕ) (nodework : ℕ → ℚ) (st : FlbdState) :
    flbdIter leftnodes nodework st = Sum.inl ((st.r_divide + st.r_max) / 2) := by
  unfold flbdIter
  rw [accumulateWork_eq_zero]
  norm_num [worktol, abs_of_nonpos]

/-- C8: In every iteration of `FindLoadBalancingDivision`'s convergence loop
the work accumulators `workleft` and `workright` are still zero at the moment
the work fraction is computed (the loop over the left-side nodes reads node
ids but never accumulates any work), and for all inputs the returned division
position is independent of the work carried by the MPI nodes. -/
theorem findLoadBalancingDivision_c8 (k : Fin 3) (r_old : ℚ)
    (bbmin bbmax : Fin 3 → ℚ) (leftnodes : List ℕ) (fuel : ℕ)
    (hfuel : 1 ≤ fuel) :
    (∀ nodework, accumulateWork leftnodes nodework = ((0 : ℚ), (0 : ℚ))) ∧
    (∀ w1 w2,
      findLoadBalancingDivision k r_old bbmin bbmax leftnodes w1 fuel =
        findLoadBalancingDivision k r_old bbmin bbmax leftnodes w2 fuel) := by
  refine ⟨fun w => accumulateWork_eq_zero leftnodes w, fun w1 w2 => ?_⟩
  obtain ⟨fuel', rfl⟩ : ∃ f, fuel = f + 1 := ⟨fuel - 1, by omega⟩
  unfold findLoadBalancingDivision flbdLoop
  rw [flbdIter_eq, flbdIter_eq]

/-- C8 witness: a concrete call with one unit of fuel and two different work
assignments. -/
theorem findLoadBalancingDivision_c8_witness :
    (∀ nodework, accumulateWork [0, 1] nodework = ((0 : ℚ), (0 : ℚ))) ∧
    (∀ w1 w2,
      findLoadBalancingDivision 0 (1 : ℚ) (fun _ => 0) (fun _ => 4) [0, 1] w1 1 =
        findLoadBalancingDivision 0 (1 : ℚ) (fun _ => 0) (fun _ => 4) [0, 1] w2 1) :=
  findLoadBalancingDivision_c8 0 1 (fun _ => 0) (fun _ => 4) [0, 1] 1 (by decide)

/-- C4 (divergence witness): with hydro forces and self-gravity both enabled,
a particle whose hydro pass contributes acceleration `(1,0,0)` and whose
gravity pass contributes `(2,0,0)` ends the force-update pass of
`SphSimulation::Setup`/`MainLoop` with total acceleration `a = (2,0,0)` —
the `// Add accelerations` loop executes `a[k] = agrav[k]`, overwriting the
hydro component instead of summing, so `a` differs from the claimed
hydro + gravity sum `(3,0,0)`. -/
theorem forceUpdatePass_overwrites_hydro_c4 :
    (forceUpdatePass 1 1 (fun _ => ⟨1, 0, 0⟩) (fun _ => 0) (fun _ => ⟨2, 0, 0⟩)
        (fun _ => 0) [pSample]).map (fun p => p.a) = [⟨2, 0, 0⟩] ∧
    (forceUpdatePass 1 1 (fun _ => ⟨1, 0, 0⟩) (fun _ => 0) (fun _ => ⟨2, 0, 0⟩)
        (fun _ => 0) [pSample]).map (fun p => p.agrav) = [⟨2, 0, 0⟩] ∧
    vadd ⟨1, 0, 0⟩ ⟨2, 0, 0⟩ = (⟨3, 0, 0⟩ : Vec3) ∧
    (⟨2, 0, 0⟩ : Vec3) ≠ (⟨3, 0, 0⟩ : Vec3) := by
  refine ⟨?_, ?_, ?_, ?_⟩
  · simp [forceUpdatePass, applyHydroForces, applyGravityForces, addAccelerations,
      zeroAccel, pSample, vadd]
  · simp [forceUpdatePass, applyHydroForces, applyGravityForces, addAccelerations,
      zeroAccel, pSample, vadd]
  · norm_num [vadd, Vec3.mk.injEq]
  · simp [Vec3.mk.injEq]

/-- Length of the export-message body: one cell record plus that cell's
active particles, per cell. -/
theorem exportBody_length (sphdata : ℕ → PartM) (activeOf : TCell → List ℕ) :
    ∀ (cells : List TCell) (e : ℕ),
      (exportBody sphdata activeOf cells e).length =
        cells.length + activeTotal activeOf cells := by
  intro cells
  induction cells with
  | nil => intro e; simp [exportBody, activeTotal]
  | cons c cs ih =>
    intro e
    simp only [exportBody, List.length_append, exportCellBlock, List.length_cons,
      List.length_map, ih, activeTotal, List.map_cons, List.sum_cons]
    omega

/-- Positional content of the export-message body: the block for cell `j`
starts right after the `j` earlier cell records and their particles, and
its `exported_particles` offset is the number of particles of the earlier
cells. -/
theorem exportBody_block (sphdata : ℕ → PartM) (activeOf : TCell → List ℕ) :
    ∀ (cells : List TCell) (e j : ℕ), j < cells.length →
      ((exportBody sphdata activeOf cells e).drop
          (j + activeTotal activeOf (cells.take j))).take
          (1 + (activeOf (cells.getD j dCell)).length) =
        exportCellBlock sphdata activeOf (e + activeTotal activeOf (cells.take j))
          (cells.getD j dCell) := by
  intro cells
  induction cells with
  | nil => intro e j hj; simp at hj
  | cons c cs ih =>
    intro e j hj
    match j with
    | 0 =>
      simp only [List.take_zero, activeTotal, List.map_nil, List.sum_nil,
        Nat.add_zero, Nat.zero_add, List.drop_zero, List.getD_cons_zero, exportBody]
      rw [List.take_append_of_le_length (by simp [exportCellBlock]; omega),
        List.take_of_length_le (by simp [exportCellBlock]; omega)]
    | jj + 1 =>
      have hjj : jj < cs.length := by simpa using hj
      have ihh := ih (e + (activeOf c).length) jj hjj
      simp only [exportBody, List.getD_cons_succ, List.take_succ_cons, activeTotal,
        List.map_cons, List.sum_cons] at ihh ⊢
      rw [show jj + 1 +
            ((activeOf c).length + (List.map (fun cc => (activeOf cc).length) (cs.take jj)).sum) =
          (exportCellBlock sphdata activeOf e c).length +
            (jj + (List.map (fun cc => (activeOf cc).length) (cs.take jj)).sum) by
        simp [exportCellBlock]; omega]
      rw [← List.drop_drop, List.drop_left, ihh,
        show e + (activeOf c).length +
            (List.map (fun cc => (activeOf cc).length) (cs.take jj)).sum =
          e + ((activeOf c).length +
            (List.map (fun cc => (activeOf cc).length) (cs.take jj)).sum) by omega]

/-- C3 (amended): the export message built by `GetExportInfo` is a header of
two int32 values (the active particle count, then the active cell count)
followed by the per-cell blocks in cell order, where each cell's record is
immediately followed by that cell's own active particle records (cell and
particle records are interleaved per cell, not grouped); the message carries
exactly `cells.length` cell records plus the cells' active particles, and
cell `j`'s block sits after the `j` earlier blocks with its `ifirst` offset
equal to the number of particles written before it. -/
theorem getExportInfo_layout_c3 (sphdata : ℕ → PartM) (activeOf : TCell → List ℕ)
    (Nactive : ℕ) (cells : List TCell) :
    getExportInfo sphdata activeOf Nactive cells =
      BufItem.intVal (Nactive : ℤ) :: BufItem.intVal (cells.length : ℤ) ::
        exportBody sphdata activeOf cells 0 ∧
    (getExportInfo sphdata activeOf Nactive cells).length =
      2 + cells.length + activeTotal activeOf cells ∧
    (∀ j, j < cells.length →
      ((getExportInfo sphdata activeOf Nactive cells).drop
          (2 + (j + activeTotal activeOf (cells.take j)))).take
          (1 + (activeOf (cells.getD j dCell)).length) =
        exportCellBlock sphdata activeOf (activeTotal activeOf (cells.take j))
          (cells.getD j dCell)) := by
  refine ⟨rfl, ?_, ?_⟩
  · simp only [getExportInfo, List.length_cons,
      exportBody_length sphdata activeOf cells 0]
    omega
  · intro j hj
    have hb := exportBody_block sphdata activeOf cells 0 j hj
    simp only [Nat.zero_add] at hb
    rw [show 2 + (j + activeTotal activeOf (cells.take j)) =
        (j + activeTotal activeOf (cells.take j)) + 1 + 1 by omega]
    simp only [getExportInfo, List.drop_succ_cons]
    exact hb

/-- C3 counterexample: with two exported cells of one active particle each,
the message built by `GetExportInfo` is
`[Np, Nc, cell0, particle, cell1, particle]` — there is no way to read it as
`[Np, Nc]` followed by two cell records and then two particle records, as
the claim (and the spec's §6 wire contract) states: position 3 of the
message holds a particle record where the claimed layout requires the second
cell record. -/
theorem getExportInfo_not_grouped_c3 :
    ¬ ∃ (cs : List TCell) (ps : List PartM),
        cs.length = 2 ∧ ps.length = 2 ∧
        getExportInfo (fun _ => pSample) (fun _ => [0]) 2 [cEx, cEx] =
          claimedExportLayout 2 2 cs ps := by
  rintro ⟨cs, ps, hcs, hps, heq⟩
  rcases cs with _ | ⟨a, cs⟩
  · simp at hcs
  rcases cs with _ | ⟨b, cs⟩
  · simp at hcs
  rcases cs with _ | ⟨c, cs⟩
  · simp only [getExportInfo, exportBody, exportCellBlock, claimedExportLayout,
      List.map_cons, List.map_nil, List.cons_append, List.nil_append,
      List.cons.injEq] at heq
    exact absurd heq.2.2.2.1 (by simp)
  · simp at hcs

/-- C3 witness: the block property evaluated for the second of two concrete
export cells. -/
theorem getExportInfo_layout_c3_witness :
    (1 : ℕ) < [cEx, cEx].length ∧
    ((getExportInfo (fun _ => pSample) (fun _ => [0]) 2 [cEx, cEx]).drop
        (2 + (1 + activeTotal (fun _ => [0]) ([cEx, cEx].take 1)))).take
        (1 + (([0] : List ℕ)).length) =
      exportCellBlock (fun _ => pSample) (fun _ => [0])
        (activeTotal (fun _ => [0]) ([cEx, cEx].take 1)) ([cEx, cEx].getD 1 dCell) :=
  ⟨by simp,
   (getExportInfo_layout_c3 (fun _ => pSample) (fun _ => [0]) 2 [cEx, cEx]).2.2 1
     (by simp)⟩

/-- The peer loop of `GetBackExportInfo` copies, in order, the particle
records found at consecutive array positions starting at
`Nsph + Nghost + removed`; it never modifies the array, `Nsph` or `Nghost`. -/
theorem getBackLoop_buffer :
    ∀ (L : List ℕ) (removed : ℕ) (s : MpiSt) (buf : List PartM),
      (getBackLoop L removed s buf).2 =
        buf ++ (List.range L.sum).map
          (fun j => s.sphdata (s.Nsph + s.Nghost + removed + j)) := by
  intro L
  induction L with
  | nil => intro removed s buf; simp [getBackLoop]
  | cons nrec rest ih =>
    intro removed s buf
    simp only [getBackLoop, List.sum_cons]
    rw [ih]
    simp only [List.append_assoc, List.range_add, List.map_append, List.map_map]
    congr 1
    congr 1
    apply List.map_congr_left
    intro j hj
    simp only [Function.comp_apply]
    congr 1
    omega

/-- Counter bookkeeping of the peer loop of `GetBackExportInfo`. -/
theorem getBackLoop_state :
    ∀ (L : List ℕ) (removed : ℕ) (s : MpiSt) (buf : List PartM),
      (getBackLoop L removed s buf).1.Ntot = s.Ntot - L.sum ∧
      (getBackLoop L removed s buf).1.NImportedParticles =
        s.NImportedParticles - L.sum ∧
      (getBackLoop L removed s buf).1.Nsph = s.Nsph ∧
      (getBackLoop L removed s buf).1.Nghost = s.Nghost ∧
      (getBackLoop L removed s buf).1.Ncell = s.Ncell ∧
      (getBackLoop L removed s buf).1.treeNtot = s.treeNtot := by
  intro L
  induction L with
  | nil => intro removed s buf; simp [getBackLoop]
  | cons nrec rest ih =>
    intro removed s buf
    simp only [getBackLoop, List.sum_cons]
    have := ih (removed + nrec)
      { s with Ntot := s.Ntot - nrec, NImportedParticles := s.NImportedParticles - nrec }
      (buf ++ (List.range nrec).map (fun j => s.sphdata (s.Nsph + s.Nghost + removed + j)))
    simp only at this
    refine ⟨?_, ?_, ?_, ?_, ?_, ?_⟩ <;> simp [this.1, this.2.1, this.2.2.1,
      this.2.2.2.1, this.2.2.2.2.1, this.2.2.2.2.2] <;> omega

/-- C6 (amended): the per-particle payload `GetBackExportInfo` packs for
return is the complete particle record (every field, not only the
accumulation-relevant ones) of each imported particle, taken from
consecutive array positions after the real and ghost particles — i.e. in the
order the imports were unpacked, which is the order of the corresponding
export messages. -/
theorem getBackExportInfo_payload_c6 (s : MpiSt) :
    (getBackExportInfo s).2 =
      (List.range s.NimpPerProc.sum).map
        (fun j => s.sphdata (s.Nsph + s.Nghost + j)) := by
  unfold getBackExportInfo
  rw [getBackLoop_buffer]
  simp

/-- C6 counterexample: two states whose particles agree on every
accumulation-relevant result field (acceleration, gravitational
acceleration, potential, potential energy, energy derivative, velocity
divergence, neighbour level) but differ in mass produce different return
payloads — so the payload does not consist only of those result fields; the
whole record (mass included) is packed. -/
theorem getBackExportInfo_full_record_c6 :
    (∀ n, accumFieldsEq (s6a.sphdata n) (s6b.sphdata n)) ∧
    (getBackExportInfo s6a).2 ≠ (getBackExportInfo s6b).2 := by
  constructor
  · intro n
    exact ⟨rfl, rfl, rfl, rfl, rfl, rfl, rfl⟩
  · intro h
    rw [getBackExportInfo_payload_c6, getBackExportInfo_payload_c6] at h
    simp only [s6a, s6b, List.sum_cons, List.sum_nil, List.map_inj_left] at h
    have := h 0 (by simp)
    have hm := congrArg PartM.m this
    simp only [pSample] at hm
    norm_num at hm

/-- The particle-copy loop only writes the particle array and the linked
list. -/
theorem storeImported_fields :
    ∀ (ps : List PartM) (idx : ℕ) (s : MpiSt),
      ∃ f g, storeImported ps idx s = { s with sphdata := f, inextA := g } := by
  intro ps
  induction ps with
  | nil => intro idx s; exact ⟨s.sphdata, s.inextA, rfl⟩
  | cons p ps ih =>
    intro idx s
    obtain ⟨f, g, hfg⟩ := ih (idx + 1)
      { s with sphdata := fun n => if n = idx then p else s.sphdata n,
               inextA := fun n => if n = idx then (idx : ℤ) + 1 else s.inextA n }
    exact ⟨f, g, by rw [storeImported, hfg]⟩

/-- The cell loop of `UnpackExported` only writes the cell array, the
particle array and the linked list — every counter is untouched. -/
theorem unpackCells_fields (Ntot0 base : ℕ) :
    ∀ (cells : List (TCell × List PartM)) (icell pidx : ℕ) (s : MpiSt),
      ∃ cf pf nf, unpackCells Ntot0 base cells icell pidx s =
        { s with celldata := cf, sphdata := pf, inextA := nf } := by
  intro cells
  induction cells with
  | nil => intro icell pidx s; exact ⟨s.celldata, s.sphdata, s.inextA, rfl⟩
  | cons cp rest ih =>
    intro icell pidx s
    obtain ⟨f, g, hfg⟩ := storeImported_fields cp.2 pidx
      { s with celldata := fun n => if n = base + icell then
          { cp.1 with ifirst := cp.1.ifirst + (Ntot0 : ℤ),
                      ilast := cp.1.ilast + (Ntot0 : ℤ) } else s.celldata n }
    obtain ⟨cf, pf, nf, hrec⟩ := ih (icell + 1) (pidx + cp.2.length)
      { { s with celldata := fun n => if n = base + icell then
            { cp.1 with ifirst := cp.1.ifirst + (Ntot0 : ℤ),
                        ilast := cp.1.ilast + (Ntot0 : ℤ) } else s.celldata n }
          with sphdata := f, inextA := g }
    refine ⟨cf, pf, nf, ?_⟩
    rw [unpackCells, hfg, hrec]

/-- Counter effect of accepting one peer's message: some `np` (0 for an empty
transfer, the header particle count otherwise) is appended to the
bookkeeping list and added to `Ntot` and `NImportedParticles`; `Nsph`,
`Nghost`, `Ncell` and the capacities are untouched. -/
theorem unpackOne_ok_effect (s : MpiSt) (b : RecvBuf) (s2 : MpiSt)
    (h : unpackOne s b = Except.ok s2) :
    ∃ np, s2.NimpPerProc = s.NimpPerProc ++ [np] ∧
      s2.Ntot = s.Ntot + np ∧
      s2.NImportedParticles = s.NImportedParticles + np ∧
      s2.Nsph = s.Nsph ∧ s2.Nghost = s.Nghost ∧ s2.Ncell = s.Ncell ∧
      s2.Nsphmax = s.Nsphmax ∧ s2.Ncellmax = s.Ncellmax := by
  unfold unpackOne at h
  by_cases h0 : b.nbytes = 0
  · rw [if_pos h0] at h
    refine ⟨0, ?_⟩
    cases h
    simp
  · rw [if_neg h0] at h
    by_cases hp : s.Nsphmax < s.Ntot + b.Np
    · rw [if_pos hp] at h; cases h
    · rw [if_neg hp] at h
      by_cases hc : s.Ncellmax < s.Ncelltot + b.Nc
      · rw [if_pos hc] at h; cases h
      · rw [if_neg hc] at h
        obtain ⟨cf, pf, nf, hu⟩ := unpackCells_fields s.Ntot s.Ncelltot b.cells 0 s.Ntot
          { s with NimpPerProc := s.NimpPerProc ++ [b.Np] }
        rw [hu] at h
        refine ⟨b.Np, ?_⟩
        cases h
        simp

/-- Accepting a sequence of messages adds, per message, its particle count to
`Ntot` and `NImportedParticles` and records it in the bookkeeping list. -/
theorem unpackFold_ok :
    ∀ (bufs : List RecvBuf) (s s' : MpiSt),
      bufs.foldlM unpackOne s = Except.ok s' →
      ∃ L : List ℕ,
        s'.NimpPerProc = s.NimpPerProc ++ L ∧
        s'.Ntot = s.Ntot + L.sum ∧
        s'.NImportedParticles = s.NImportedParticles + L.sum ∧
        s'.Nsph = s.Nsph ∧ s'.Nghost = s.Nghost ∧ s'.Ncell = s.Ncell ∧
        s'.Nsphmax = s.Nsphmax ∧ s'.Ncellmax = s.Ncellmax := by
  intro bufs
  induction bufs with
  | nil =>
    intro s s' h
    cases h
    exact ⟨[], by simp⟩
  | cons b rest ih =>
    intro s s' h
    rw [List.foldlM_cons] at h
    cases hone : unpackOne s b with
    | error e => rw [hone] at h; cases h
    | ok s2 =>
      rw [hone] at h
      obtain ⟨np, h1, h2, h3, h4, h5, h6, h7, h8⟩ := unpackOne_ok_effect s b s2 hone
      obtain ⟨L, g1, g2, g3, g4, g5, g6, g7, g8⟩ := ih s2 s' h
      refine ⟨np :: L, ?_, ?_, ?_, ?_, ?_, ?_, ?_, ?_⟩ <;>
        simp [g1, g2, g3, g4, g5, g6, g7, g8, h1, h2, h3, h4, h5, h6, h7, h8] <;> omega

/-- `UnpackExported` acceptance: starting counters plus the received particle
totals. -/
theorem unpackExported_ok (s : MpiSt) (bufs : List RecvBuf) (s' : MpiSt)
    (h : unpackExported s bufs = Except.ok s') :
    ∃ L : List ℕ,
      s'.NimpPerProc = L ∧
      s'.Ntot = s.Ntot + L.sum ∧
      s'.NImportedParticles = s.NImportedParticles + L.sum ∧
      s'.Nsph = s.Nsph ∧ s'.Nghost = s.Nghost ∧ s'.Ncell = s.Ncell := by
  unfold unpackExported at h
  obtain ⟨L, g1, g2, g3, g4, g5, g6, g7, g8⟩ := unpackFold_ok bufs _ s' h
  exact ⟨L, by simpa using g1, by simpa using g2, by simpa using g3,
    g4, g5, g6⟩

/-- C7: capacity exhaustion is fatal and never silently truncated.  (i) If
after ghost generation the total particle count exceeds `Nsphmax`,
`SearchBoundaryGhostParticles` raises the run-terminating ghost-memory
error.  (ii) If unpacking a peer's message would push the particle total past
`Nsphmax`, `UnpackExported` raises the run-terminating particle-memory error
— whatever the payload holds, since the check runs before the copy.
(iii) Likewise for the cell total and the cell capacity `Ncellmax`. -/
theorem capacityFatal_c7 :
    (∀ (ndim : ℕ) (nNew : Axis → GState → ℤ → ℕ) (tghost grange : ℚ)
        (box : SimBoxM) (t : KDTreeM) (fuel : ℕ) (s0 : GState),
      ¬ allOpen box →
      (sbgpPasses ndim nNew tghost grange box t fuel s0).Nsphmax <
        (sbgpPasses ndim nNew tghost grange box t fuel s0).Ntot →
      searchBoundaryGhostParticles ndim nNew tghost grange box t fuel s0 =
        Except.error GErr.ghostMemory) ∧
    (∀ (s : MpiSt) (pre : List RecvBuf) (b : RecvBuf) (rest : List RecvBuf)
        (t' : MpiSt),
      unpackExported s pre = Except.ok t' →
      b.nbytes ≠ 0 →
      t'.Nsphmax < t'.Ntot + b.Np →
      unpackExported s (pre ++ b :: rest) =
        Except.error GErr.importParticleMemory) ∧
    (∀ (s : MpiSt) (pre : List RecvBuf) (b : RecvBuf) (rest : List RecvBuf)
        (t' : MpiSt),
      unpackExported s pre = Except.ok t' →
      b.nbytes ≠ 0 →
      ¬ t'.Nsphmax < t'.Ntot + b.Np →
      t'.Ncellmax < t'.Ncelltot + b.Nc →
      unpackExported s (pre ++ b :: rest) =
        Except.error GErr.importCellMemory) := by
  refine ⟨?_, ?_, ?_⟩
  · intro ndim nNew tghost grange box t fuel s0 hno hovf
    unfold searchBoundaryGhostParticles
    rw [if_neg hno]
    simp only [sbgpPasses] at hovf ⊢
    rw [if_pos hovf]
  · intro s pre b rest t' hpre hb hovf
    unfold unpackExported at hpre ⊢
    rw [List.foldlM_append, hpre]
    show (b :: rest).foldlM unpackOne t' = _
    rw [List.foldlM_cons]
    have : unpackOne t' b = Except.error GErr.importParticleMemory := by
      unfold unpackOne
      rw [if_neg hb, if_pos (by simpa using hovf)]
    rw [this]
    rfl
  · intro s pre b rest t' hpre hb hnp hovc
    unfold unpackExported at hpre ⊢
    rw [List.foldlM_append, hpre]
    show (b :: rest).foldlM unpackOne t' = _
    rw [List.foldlM_cons]
    have : unpackOne t' b = Except.error GErr.importCellMemory := by
      unfold unpackOne
      rw [if_neg hb, if_neg (by simpa using hnp), if_pos (by simpa using hovc)]
    rw [this]
    rfl

/-- C7 witness: all three capacity errors observed on concrete inputs. -/
theorem capacityFatal_c7_witness :
    (searchBoundaryGhostParticles 1 (fun _ _ _ => 0) 0 1 boxPX tEmpty 2 gOver =
      Except.error GErr.ghostMemory) ∧
    (unpackExported s7 ([] ++ { nbytes := 1, Np := 100, Nc := 0, cells := [] } :: []) =
      Except.error GErr.importParticleMemory) ∧
    (unpackExported s7 ([] ++ { nbytes := 1, Np := 0, Nc := 100, cells := [] } :: []) =
      Except.error GErr.importCellMemory) := by
  refine ⟨?_, ?_, ?_⟩
  · exact capacityFatal_c7.1 1 (fun _ _ _ => 0) 0 1 boxPX tEmpty 2 gOver
      (by decide) (by decide)
  · exact capacityFatal_c7.2.1 s7 [] _ [] s7r rfl (by decide) (by decide)
  · exact capacityFatal_c7.2.2 s7 [] _ [] s7r rfl (by decide) (by decide) (by decide)

/-- C10: import bookkeeping round-trips within a step.  From a state with no
imported particles or cells (so `Ntot = Nsph + Nghost`), after
`UnpackExported` accepts any sequence of per-peer messages and
`GetBackExportInfo` packs the returns, the particle total is back to
`Nsph + Nghost`, the imported-particle count is zero, the tree's total cell
count equals its local cell count, and the imported-cell count is zero. -/
theorem importRoundTrip_c10 (s : MpiSt) (bufs : List RecvBuf) (s' : MpiSt)
    (h0 : s.NImportedParticles = 0) (h1 : s.Nimportedcell = 0)
    (h2 : s.Ntot = s.Nsph + s.Nghost)
    (h : unpackExported s bufs = Except.ok s') :
    (getBackExportInfo s').1.Ntot = s.Nsph + s.Nghost ∧
    (getBackExportInfo s').1.NImportedParticles = 0 ∧
    (getBackExportInfo s').1.Ncelltot = (getBackExportInfo s').1.Ncell ∧
    (getBackExportInfo s').1.Nimportedcell = 0 ∧
    (getBackExportInfo s').1.Nsph = s.Nsph ∧
    (getBackExportInfo s').1.Nghost = s.Nghost := by
  obtain ⟨L, g1, g2, g3, g4, g5, g6⟩ := unpackExported_ok s bufs s' h
  obtain ⟨b1, b2, b3, b4, b5, b6⟩ := getBackLoop_state s'.NimpPerProc 0 s' []
  unfold getBackExportInfo
  refine ⟨?_, ?_, rfl, rfl, ?_, ?_⟩
  · show (getBackLoop s'.NimpPerProc 0 s' []).1.Ntot = s.Nsph + s.Nghost
    rw [b1, g2, g1, h2]
    omega
  · show (getBackLoop s'.NimpPerProc 0 s' []).1.NImportedParticles = 0
    rw [b2, g3, g1, h0]
    omega
  · show (getBackLoop s'.NimpPerProc 0 s' []).1.Nsph = s.Nsph
    rw [b3, g4]
  · show (getBackLoop s'.NimpPerProc 0 s' []).1.Nghost = s.Nghost
    rw [b4, g5]

/-- C10 witness: a concrete round trip over one (empty) peer message. -/
theorem importRoundTrip_c10_witness :
    (getBackExportInfo { s7r with NimpPerProc := [0] }).1.Ntot =
      s7.Nsph + s7.Nghost ∧
    (getBackExportInfo { s7r with NimpPerProc := [0] }).1.NImportedParticles = 0 ∧
    (getBackExportInfo { s7r with NimpPerProc := [0] }).1.Ncelltot =
      (getBackExportInfo { s7r with NimpPerProc := [0] }).1.Ncell ∧
    (getBackExportInfo { s7r with NimpPerProc := [0] }).1.Nimportedcell = 0 ∧
    (getBackExportInfo { s7r with NimpPerProc := [0] }).1.Nsph = s7.Nsph ∧
    (getBackExportInfo { s7r with NimpPerProc := [0] }).1.Nghost = s7.Nghost :=
  importRoundTrip_c10 s7 [{ nbytes := 0, Np := 3, Nc := 3, cells := [] }]
    { s7r with NimpPerProc := [0] } rfl rfl rfl rfl

/-- Reconciliation never changes a particle's origin identifier. -/
theorem addReturned_iorig (p rec : PartM) : (addReturned p rec).iorig = p.iorig := rfl

/-- Applying any visited pairs leaves every origin identifier unchanged. -/
theorem applyPairs_iorig :
    ∀ (L : List (ℕ × PartM)) (d : ℕ → PartM) (n : ℕ),
      (applyPairs d L n).iorig = (d n).iorig := by
  intro L
  induction L with
  | nil => intro d n; rfl
  | cons pr L ih =>
    intro d n
    unfold applyPairs at ih ⊢
    rw [List.foldl_cons, ih]
    by_cases hn : n = pr.1 <;> simp [hn, addReturned_iorig]

/-- The net effect of the visited pairs on one particle: the records matched
to it, folded in arrival order. -/
theorem applyPairs_filter :
    ∀ (L : List (ℕ × PartM)) (d : ℕ → PartM) (n : ℕ),
      applyPairs d L n =
        ((L.filter (fun pr => pr.1 = n)).map Prod.snd).foldl addReturned (d n) := by
  intro L
  induction L with
  | nil => intro d n; rfl
  | cons pr L ih =>
    intro d n
    unfold applyPairs at ih ⊢
    rw [List.foldl_cons, ih]
    by_cases hn : pr.1 = n
    · simp only [List.filter_cons]
      simp [hn]
    · simp only [List.filter_cons]
      have hn' : n ≠ pr.1 := fun hc => hn hc.symm
      simp [hn, hn']

/-- One peer's inner loop, when every record's origin id matches: it
succeeds, applying its pairs in order. -/
theorem unpackReturnedProc_ok :
    ∀ (ids : List ℕ) (recs : List PartM) (d : ℕ → PartM),
      (∀ pr ∈ ids.zip recs, (d pr.1).iorig = pr.2.iorig) →
      unpackReturnedProc ids recs d = Except.ok (applyPairs d (ids.zip recs)) := by
  intro ids
  induction ids with
  | nil => intro recs d hm; rfl
  | cons j ids ih =>
    intro recs d hm
    cases recs with
    | nil => rfl
    | cons rec recs =>
      have hj : (d j).iorig = rec.iorig := hm (j, rec) (by simp)
      unfold unpackReturnedProc
      rw [if_pos hj]
      have hpair : ∀ n, ((fun n => if n = j then addReturned (d j) rec else d n) n).iorig
          = (d n).iorig := by
        intro n
        by_cases hn : n = j <;> simp [hn, addReturned_iorig]
      rw [ih recs _ (by
        intro pr hpr
        rw [hpair pr.1]
        exact hm pr (by simp [hpr]))]
      rfl

/-- One peer's inner loop, when some visited record's origin id differs: the
fatal integrity error is raised. -/
theorem unpackReturnedProc_err :
    ∀ (ids : List ℕ) (recs : List PartM) (d : ℕ → PartM),
      (∃ pr ∈ ids.zip recs, (d pr.1).iorig ≠ pr.2.iorig) →
      unpackReturnedProc ids recs d = Except.error GErr.iorigMismatch := by
  intro ids
  induction ids with
  | nil => intro recs d hm; simp at hm
  | cons j ids ih =>
    intro recs d hm
    cases recs with
    | nil => simp at hm
    | cons rec recs =>
      by_cases hj : (d j).iorig = rec.iorig
      · unfold unpackReturnedProc
        rw [if_pos hj]
        apply ih
        obtain ⟨pr, hpr, hne⟩ := hm
        rcases (by simpa using hpr : pr = (j, rec) ∨ pr ∈ ids.zip recs) with h | h
        · exact absurd hj (by rw [h] at hne; exact hne)
        · refine ⟨pr, h, ?_⟩
          have : ((fun n => if n = j then addReturned (d j) rec else d n) pr.1).iorig
              = (d pr.1).iorig := by
            by_cases hn : pr.1 = j <;> simp [hn, addReturned_iorig]
          rw [this]
          exact hne
      · unfold unpackReturnedProc
        rw [if_neg hj]

/-- The peer loop, all-match case. -/
theorem unpackReturnedGo_ok (rank : ℕ) :
    ∀ (procs : List (List ℕ × List PartM)) (nproc : ℕ) (d : ℕ → PartM),
      (∀ pr ∈ returnedPairsGo rank nproc procs, (d pr.1).iorig = pr.2.iorig) →
      unpackReturnedGo rank nproc procs d =
        Except.ok (applyPairs d (returnedPairsGo rank nproc procs)) := by
  intro procs
  induction procs with
  | nil => intro nproc d hm; rfl
  | cons pp rest ih =>
    intro nproc d hm
    unfold unpackReturnedGo
    by_cases hr : rank = nproc
    · rw [if_pos hr]
      rw [ih (nproc + 1) d (by
        intro pr hpr
        refine hm pr ?_
        simp only [returnedPairsGo, if_pos hr, List.nil_append]
        exact hpr)]
      simp only [returnedPairsGo, if_pos hr, List.nil_append]
    · rw [if_neg hr]
      have hsub : ∀ pr ∈ pp.1.zip pp.2, (d pr.1).iorig = pr.2.iorig := by
        intro pr hpr
        refine hm pr ?_
        simp only [returnedPairsGo, if_neg hr, List.mem_append]
        exact Or.inl hpr
      rw [unpackReturnedProc_ok pp.1 pp.2 d hsub]
      show unpackReturnedGo rank (nproc + 1) rest (applyPairs d (pp.1.zip pp.2)) = _
      rw [ih (nproc + 1) (applyPairs d (pp.1.zip pp.2)) (by
        intro pr hpr
        rw [applyPairs_iorig]
        refine hm pr ?_
        simp only [returnedPairsGo, if_neg hr, List.mem_append]
        exact Or.inr hpr)]
      simp only [returnedPairsGo, if_neg hr]
      rw [show applyPairs d (pp.1.zip pp.2 ++ returnedPairsGo rank (nproc + 1) rest) =
          applyPairs (applyPairs d (pp.1.zip pp.2)) (returnedPairsGo rank (nproc + 1) rest) by
        unfold applyPairs
        rw [List.foldl_append]]

/-- The peer loop, mismatch case. -/
theorem unpackReturnedGo_err (rank : ℕ) :
    ∀ (procs : List (List ℕ × List PartM)) (nproc : ℕ) (d : ℕ → PartM),
      (∃ pr ∈ returnedPairsGo rank nproc procs, (d pr.1).iorig ≠ pr.2.iorig) →
      unpackReturnedGo rank nproc procs d = Except.error GErr.iorigMismatch := by
  intro procs
  induction procs with
  | nil => intro nproc d hm; simp [returnedPairsGo] at hm
  | cons pp rest ih =>
    intro nproc d hm
    unfold unpackReturnedGo
    by_cases hr : rank = nproc
    · rw [if_pos hr]
      apply ih
      obtain ⟨pr, hpr, hne⟩ := hm
      simp only [returnedPairsGo, if_pos hr, List.nil_append] at hpr
      exact ⟨pr, hpr, hne⟩
    · rw [if_neg hr]
      by_cases hz : ∃ pr ∈ pp.1.zip pp.2, (d pr.1).iorig ≠ pr.2.iorig
      · rw [unpackReturnedProc_err pp.1 pp.2 d hz]
      · rw [unpackReturnedProc_ok pp.1 pp.2 d (by
          intro pr hpr
          by_contra hne
          exact hz ⟨pr, hpr, hne⟩)]
        show unpackReturnedGo rank (nproc + 1) rest (applyPairs d (pp.1.zip pp.2)) = _
        apply ih
        obtain ⟨pr, hpr, hne⟩ := hm
        simp only [returnedPairsGo, if_neg hr, List.mem_append] at hpr
        rcases hpr with h | h
        · exact absurd ⟨pr, h, hne⟩ hz
        · refine ⟨pr, h, ?_⟩
          rw [applyPairs_iorig]
          exact hne

/-- C2: during reconciliation every returned record is matched to the local
particle at the remembered index sent to that peer; when every record's
stable origin identifier agrees with its local particle's,
`UnpackReturnedExportInfo` succeeds and each local particle ends with the
returned accelerations, gravitational accelerations, potentials,
gravitational potential energies, energy derivatives and velocity
divergences summed into its fields and its neighbour level maximised
(`addReturned`, folded over exactly the records matched to it, in arrival
order); if any returned record's origin identifier differs from its local
particle's, the call is a fatal integrity error. -/
theorem unpackReturned_c2 (rank : ℕ) (procs : List (List ℕ × List PartM))
    (d : ℕ → PartM) :
    ((∀ pr ∈ returnedPairs rank procs, (d pr.1).iorig = pr.2.iorig) →
      unpackReturnedExportInfo rank procs d =
        Except.ok (fun n => (recordsFor rank procs n).foldl addReturned (d n))) ∧
    ((∃ pr ∈ returnedPairs rank procs, (d pr.1).iorig ≠ pr.2.iorig) →
      unpackReturnedExportInfo rank procs d = Except.error GErr.iorigMismatch) := by
  constructor
  · intro hm
    unfold unpackReturnedExportInfo
    rw [unpackReturnedGo_ok rank procs 0 d hm]
    congr 1
    funext n
    rw [show applyPairs d (returnedPairsGo rank 0 procs) n =
        applyPairs d (returnedPairs rank procs) n from rfl, applyPairs_filter]
    rfl
  · intro hm
    exact unpackReturnedGo_err rank procs 0 d hm

/-- C2 witness: one peer returning one matching record. -/
theorem unpackReturned_c2_witness :
    unpackReturnedExportInfo 1 [([0], [{ pSample with gpot := 7 }])]
        (fun _ => pSample) =
      Except.ok (fun n =>
        (recordsFor 1 [([0], [{ pSample with gpot := 7 }])] n).foldl addReturned
          ((fun _ => pSample) n)) :=
  (unpackReturned_c2 1 [([0], [{ pSample with gpot := 7 }])] (fun _ => pSample)).1
    (by
      intro pr hpr
      simp only [returnedPairs, returnedPairsGo] at hpr
      norm_num at hpr
      rw [hpr])

/-- The leaf particle loop of a ghost pass preserves the particle counters
and appends to the trace one check per visited chain entry — all of them
real-particle indices when the tree's chains are well formed. -/
theorem leafScan_spec (nNew : Axis → GState → ℤ → ℕ) (aa : Axis) (t : KDTreeM)
    (Nsph : ℕ)
    (hnext : ∀ i : ℤ, t.inext i = -1 ∨ (0 ≤ t.inext i ∧ t.inext i < (Nsph : ℤ)))
    (ilast : ℤ) :
    ∀ (fuel : ℕ) (i : ℤ) (s : GState),
      (i = -1 ∨ (0 ≤ i ∧ i < (Nsph : ℤ))) →
      (leafScan nNew aa t ilast fuel i s).Nsph = s.Nsph ∧
      (leafScan nNew aa t ilast fuel i s).Ntot = s.Ntot ∧
      (leafScan nNew aa t ilast fuel i s).Nsphmax = s.Nsphmax ∧
      ∃ w, (leafScan nNew aa t ilast fuel i s).trace = s.trace ++ w ∧
        ∀ pr ∈ w, pr.1 = aa ∧ 0 ≤ pr.2 ∧ pr.2 < (Nsph : ℤ) := by
  intro fuel
  induction fuel with
  | zero =>
    intro i s hi
    exact ⟨rfl, rfl, rfl, [], (List.append_nil _).symm, by simp⟩
  | succ fuel ih =>
    intro i s hi
    unfold leafScan
    by_cases h1 : i = -1
    · rw [if_pos h1]
      exact ⟨rfl, rfl, rfl, [], (List.append_nil _).symm, by simp⟩
    · rw [if_neg h1]
      have hi' : 0 ≤ i ∧ i < (Nsph : ℤ) := hi.resolve_left h1
      by_cases h2 : i = ilast
      · rw [if_pos h2]
        exact ⟨rfl, rfl, rfl, [(aa, i)], by simp [applyCheck],
          by simp [hi'.1, hi'.2]⟩
      · rw [if_neg h2]
        obtain ⟨p1, p2, p3, w, hw, hprop⟩ :=
          ih (t.inext i) (applyCheck nNew aa s i) (hnext i)
        refine ⟨p1, p2, p3, (aa, i) :: w, ?_, ?_⟩
        · rw [hw]
          simp [applyCheck]
        · intro pr hpr
          rcases List.mem_cons.mp hpr with h | h
          · rw [h]
            exact ⟨rfl, hi'.1, hi'.2⟩
          · exact hprop pr h

/-- The tree walk of a ghost pass preserves the particle counters and appends
only real-particle checks of its own axis to the trace. -/
theorem ghostWalk_spec (nNew : Axis → GState → ℤ → ℕ) (aa : Axis) (k : Fin 3)
    (tghost grange : ℚ) (box : SimBoxM) (t : KDTreeM) (Nsph : ℕ)
    (hv : treeIndicesValid t Nsph) :
    ∀ (fuel c : ℕ) (s : GState),
      (ghostWalk nNew aa k tghost grange box t fuel c s).Nsph = s.Nsph ∧
      (ghostWalk nNew aa k tghost grange box t fuel c s).Ntot = s.Ntot ∧
      (ghostWalk nNew aa k tghost grange box t fuel c s).Nsphmax = s.Nsphmax ∧
      ∃ w, (ghostWalk nNew aa k tghost grange box t fuel c s).trace = s.trace ++ w ∧
        ∀ pr ∈ w, pr.1 = aa ∧ 0 ≤ pr.2 ∧ pr.2 < (Nsph : ℤ) := by
  intro fuel
  induction fuel with
  | zero =>
    intro c s
    exact ⟨rfl, rfl, rfl, [], (List.append_nil _).symm, by simp⟩
  | succ fuel ih =>
    intro c s
    unfold ghostWalk
    by_cases h1 : c < t.Ncell
    · rw [if_pos h1]
      by_cases h2 : cellNearBoundary k tghost grange box (t.celldata c)
      · rw [if_pos h2]
        by_cases h3 : (t.celldata c).level ≠ t.ltot
        · rw [if_pos h3]
          exact ih (c + 1) s
        · rw [if_neg h3]
          by_cases h4 : (t.celldata c).N = 0
          · rw [if_pos h4]
            exact ih (t.celldata c).cnext s
          · rw [if_neg h4]
            obtain ⟨l1, l2, l3, wl, hwl, hlprop⟩ :=
              leafScan_spec nNew aa t Nsph hv.2 (t.celldata c).ilast fuel
                (t.celldata c).ifirst s (hv.1 c)
            obtain ⟨g1, g2, g3, wg, hwg, hgprop⟩ :=
              ih (t.celldata c).cnext
                (leafScan nNew aa t (t.celldata c).ilast fuel (t.celldata c).ifirst s)
            refine ⟨by rw [g1, l1], by rw [g2, l2], by rw [g3, l3],
              wl ++ wg, ?_, ?_⟩
            · rw [hwg, hwl, List.append_assoc]
            · intro pr hpr
              rcases List.mem_append.mp hpr with h | h
              · exact hlprop pr h
              · exact hgprop pr h
      · rw [if_neg h2]
        exact ih (t.celldata c).cnext s
    · rw [if_neg h1]
      exact ⟨rfl, rfl, rfl, [], (List.append_nil _).symm, by simp⟩

/-- The direct-sum ghost scan preserves the counters and appends exactly one
check of its axis per index in `[i, Ntot)`, in order. -/
theorem directGhostScan_spec (nNew : Axis → GState → ℤ → ℕ) (aa : Axis) :
    ∀ (k i : ℕ) (s : GState), s.Ntot - i = k →
      (directGhostScan nNew aa i s).Nsph = s.Nsph ∧
      (directGhostScan nNew aa i s).Ntot = s.Ntot ∧
      (directGhostScan nNew aa i s).Nsphmax = s.Nsphmax ∧
      (directGhostScan nNew aa i s).trace =
        s.trace ++ scanTrace aa i (s.Ntot - i) := by
  intro k
  induction k with
  | zero =>
    intro i s hk
    have hni : ¬ i < s.Ntot := by omega
    rw [directGhostScan, dif_neg hni, hk]
    exact ⟨rfl, rfl, rfl, by simp [scanTrace]⟩
  | succ k ih =>
    intro i s hk
    have hlt : i < s.Ntot := by omega
    rw [directGhostScan, dif_pos hlt]
    have hk' : (applyCheck nNew aa s (i : ℤ)).Ntot - (i + 1) = k := by
      simp only [applyCheck]
      omega
    obtain ⟨p1, p2, p3, ptr⟩ := ih (i + 1) (applyCheck nNew aa s (i : ℤ)) hk'
    refine ⟨by rw [p1]; rfl, by rw [p2]; rfl, by rw [p3]; rfl, ?_⟩
    rw [ptr, hk]
    simp only [applyCheck] at hk' ⊢
    rw [hk', show scanTrace aa i (k + 1) = (aa, Int.ofNat i) :: scanTrace aa (i + 1) k by
      simp [scanTrace, List.range'_succ]]
    simp

/-- The x-axis ghost block: walks the tree only (checks on real particles),
then re-establishes `Ntot = Nsph + Nghost`. -/
theorem xPassGhost_spec (nNew : Axis → GState → ℤ → ℕ) (tghost grange : ℚ)
    (box : SimBoxM) (t : KDTreeM) (fuel Nsph : ℕ)
    (hv : treeIndicesValid t Nsph) (s : GState) (hNs : s.Nsph = Nsph)
    (hs : s.Ntot = s.Nsph + s.Nghost) :
    (xPassGhost nNew tghost grange box t fuel s).Nsph = Nsph ∧
    (xPassGhost nNew tghost grange box t fuel s).Ntot =
      (xPassGhost nNew tghost grange box t fuel s).Nsph +
        (xPassGhost nNew tghost grange box t fuel s).Nghost ∧
    (xPassGhost nNew tghost grange box t fuel s).Nsphmax = s.Nsphmax ∧
    ∃ w, (xPassGhost nNew tghost grange box t fuel s).trace = s.trace ++ w ∧
      ∀ pr ∈ w, pr.1 = Axis.ax ∧ 0 ≤ pr.2 ∧ pr.2 < (Nsph : ℤ) := by
  unfold xPassGhost
  by_cases hg : ¬(box.x_boundary_lhs = "open" ∧ box.x_boundary_rhs = "open")
  · rw [if_pos hg]
    obtain ⟨w1, w2, w3, w, hw, hprop⟩ :=
      ghostWalk_spec nNew Axis.ax 0 tghost grange box t Nsph hv fuel 0 s
    exact ⟨by simpa [hNs] using w1, rfl, by simpa using w3, w, by simpa using hw, hprop⟩
  · rw [if_neg hg]
    exact ⟨hNs, by omega, rfl, [], (List.append_nil _).symm, by simp⟩

/-- The y-axis ghost block: when enabled it walks the tree (checks on real
particles) and then direct-scans exactly the indices `[Nsph, Ntot)` — the
ghosts created by the earlier pass — and finally re-establishes
`Ntot = Nsph + Nghost`; when disabled it does nothing. -/
theorem yPassGhost_spec (ndim : ℕ) (nNew : Axis → GState → ℤ → ℕ)
    (tghost grange : ℚ) (box : SimBoxM) (t : KDTreeM) (fuel Nsph : ℕ)
    (hv : treeIndicesValid t Nsph) (s : GState) (hNs : s.Nsph = Nsph) :
    (yPassGhost ndim nNew tghost grange box t fuel s).Nsph = Nsph ∧
    (yPassGhost ndim nNew tghost grange box t fuel s).Nsphmax = s.Nsphmax ∧
    ((2 ≤ ndim ∧ ¬(box.y_boundary_lhs = "open" ∧ box.y_boundary_rhs = "open")) →
      (yPassGhost ndim nNew tghost grange box t fuel s).Ntot =
        (yPassGhost ndim nNew tghost grange box t fuel s).Nsph +
          (yPassGhost ndim nNew tghost grange box t fuel s).Nghost ∧
      ∃ w, (yPassGhost ndim nNew tghost grange box t fuel s).trace =
          s.trace ++ w ++ scanTrace Axis.ay s.Nsph (s.Ntot - s.Nsph) ∧
        ∀ pr ∈ w, pr.1 = Axis.ay ∧ 0 ≤ pr.2 ∧ pr.2 < (Nsph : ℤ)) ∧
    (¬(2 ≤ ndim ∧ ¬(box.y_boundary_lhs = "open" ∧ box.y_boundary_rhs = "open")) →
      yPassGhost ndim nNew tghost grange box t fuel s = s) := by
  unfold yPassGhost
  by_cases hg : 2 ≤ ndim ∧ ¬(box.y_boundary_lhs = "open" ∧ box.y_boundary_rhs = "open")
  · rw [if_pos hg]
    obtain ⟨w1, w2, w3, w, hw, hprop⟩ :=
      ghostWalk_spec nNew Axis.ay 1 tghost grange box t Nsph hv fuel 0 s
    obtain ⟨d1, d2, d3, dtr⟩ := directGhostScan_spec nNew Axis.ay
      ((ghostWalk nNew Axis.ay 1 tghost grange box t fuel 0 s).Ntot -
        (ghostWalk nNew Axis.ay 1 tghost grange box t fuel 0 s).Nsph)
      (ghostWalk nNew Axis.ay 1 tghost grange box t fuel 0 s).Nsph
      (ghostWalk nNew Axis.ay 1 tghost grange box t fuel 0 s) rfl
    refine ⟨?_, ?_, fun _ => ⟨rfl, w, ?_, hprop⟩, fun hng => absurd hg hng⟩
    · show (directGhostScan nNew Axis.ay _ _).Nsph = Nsph
      rw [d1, w1, hNs]
    · show (directGhostScan nNew Axis.ay _ _).Nsphmax = s.Nsphmax
      rw [d3, w3]
    · show (directGhostScan nNew Axis.ay _ _).trace = _
      rw [dtr, hw, w1, w2, List.append_assoc]
  · rw [if_neg hg]
    exact ⟨hNs, rfl, fun h => absurd h hg, fun _ => rfl⟩

/-- The z-axis ghost block: when enabled it walks the tree and then
direct-scans exactly the indices `[Nsph, Ntot)` — the ghosts created by the
x and y passes; when disabled it does nothing. -/
theorem zPassGhost_spec (ndim : ℕ) (nNew : Axis → GState → ℤ → ℕ)
    (tghost grange : ℚ) (box : SimBoxM) (t : KDTreeM) (fuel Nsph : ℕ)
    (hv : treeIndicesValid t Nsph) (s : GState) (hNs : s.Nsph = Nsph) :
    (zPassGhost ndim nNew tghost grange box t fuel s).Nsph = Nsph ∧
    (zPassGhost ndim nNew tghost grange box t fuel s).Nsphmax = s.Nsphmax ∧
    ((ndim = 3 ∧ ¬(box.z_boundary_lhs = "open" ∧ box.z_boundary_rhs = "open")) →
      (zPassGhost ndim nNew tghost grange box t fuel s).Ntot =
        (zPassGhost ndim nNew tghost grange box t fuel s).Nsph +
          (zPassGhost ndim nNew tghost grange box t fuel s).Nghost ∧
      ∃ w, (zPassGhost ndim nNew tghost grange box t fuel s).trace =
          s.trace ++ w ++ scanTrace Axis.az s.Nsph (s.Ntot - s.Nsph) ∧
        ∀ pr ∈ w, pr.1 = Axis.az ∧ 0 ≤ pr.2 ∧ pr.2 < (Nsph : ℤ)) ∧
    (¬(ndim = 3 ∧ ¬(box.z_boundary_lhs = "open" ∧ box.z_boundary_rhs = "open")) →
      zPassGhost ndim nNew tghost grange box t fuel s = s) := by
  unfold zPassGhost
  by_cases hg : ndim = 3 ∧ ¬(box.z_boundary_lhs = "open" ∧ box.z_boundary_rhs = "open")
  · rw [if_pos hg]
    obtain ⟨w1, w2, w3, w, hw, hprop⟩ :=
      ghostWalk_spec nNew Axis.az 2 tghost grange box t Nsph hv fuel 0 s
    obtain ⟨d1, d2, d3, dtr⟩ := directGhostScan_spec nNew Axis.az
      ((ghostWalk nNew Axis.az 2 tghost grange box t fuel 0 s).Ntot -
        (ghostWalk nNew Axis.az 2 tghost grange box t fuel 0 s).Nsph)
      (ghostWalk nNew Axis.az 2 tghost grange box t fuel 0 s).Nsph
      (ghostWalk nNew Axis.az 2 tghost grange box t fuel 0 s) rfl
    refine ⟨?_, ?_, fun _ => ⟨rfl, w, ?_, hprop⟩, fun hng => absurd hg hng⟩
    · show (directGhostScan nNew Axis.az _ _).Nsph = Nsph
      rw [d1, w1, hNs]
    · show (directGhostScan nNew Axis.az _ _).Nsphmax = s.Nsphmax
      rw [d3, w3]
    · show (directGhostScan nNew Axis.az _ _).trace = _
      rw [dtr, hw, w1, w2, List.append_assoc]
  · rw [if_neg hg]
    exact ⟨hNs, rfl, fun h => absurd h hg, fun _ => rfl⟩

/-- C1: with at least one non-open boundary,
`SearchBoundaryGhostParticles` creates ghosts in fixed axis order — the x
block, then the y block, then the z block (the final conjunct-1 equation) —
and, in addition to walking the tree over real particles (trace entries with
index `< Nsph`), the y block applies the y-boundary check directly to every
index in `[Nsph, Ntot)` (exactly the ghosts created so far, since
`Ntot = Nsph + Nghost` after the x block), and the z block likewise
direct-scans every index in `[Nsph, Ntot)` with `Ntot` as left by the y
block — all ghosts created by the x and y passes — so corner/edge images are
generated. -/
theorem searchBoundaryGhosts_c1 (ndim : ℕ) (nNew : Axis → GState → ℤ → ℕ)
    (tghost grange : ℚ) (box : SimBoxM) (t : KDTreeM) (fuel : ℕ) (s0 : GState)
    (hno : ¬ allOpen box) (hv : treeIndicesValid t s0.Nsph) :
    let s1 := xPassGhost nNew tghost grange box t fuel (sbgpInit s0)
    let s2 := yPassGhost ndim nNew tghost grange box t fuel s1
    let s3 := zPassGhost ndim nNew tghost grange box t fuel s2
    (searchBoundaryGhostParticles ndim nNew tghost grange box t fuel s0 =
      if s3.Nsphmax < s3.Ntot then Except.error GErr.ghostMemory
      else Except.ok { s3 with NPeriodicGhost := s3.Nghost }) ∧
    s1.Nsph = s0.Nsph ∧
    s1.Ntot = s1.Nsph + s1.Nghost ∧
    (∀ pr ∈ s1.trace, pr.1 = Axis.ax ∧ 0 ≤ pr.2 ∧ pr.2 < (s0.Nsph : ℤ)) ∧
    s2.Nsph = s0.Nsph ∧
    ((2 ≤ ndim ∧ ¬(box.y_boundary_lhs = "open" ∧ box.y_boundary_rhs = "open")) →
      s2.Ntot = s2.Nsph + s2.Nghost ∧
      ∃ w, s2.trace = s1.trace ++ w ++ scanTrace Axis.ay s1.Nsph (s1.Ntot - s1.Nsph) ∧
        ∀ pr ∈ w, pr.1 = Axis.ay ∧ 0 ≤ pr.2 ∧ pr.2 < (s0.Nsph : ℤ)) ∧
    (¬(2 ≤ ndim ∧ ¬(box.y_boundary_lhs = "open" ∧ box.y_boundary_rhs = "open")) →
      s2 = s1) ∧
    ((ndim = 3 ∧ ¬(box.z_boundary_lhs = "open" ∧ box.z_boundary_rhs = "open")) →
      s3.Ntot = s3.Nsph + s3.Nghost ∧
      ∃ w, s3.trace = s2.trace ++ w ++ scanTrace Axis.az s2.Nsph (s2.Ntot - s2.Nsph) ∧
        ∀ pr ∈ w, pr.1 = Axis.az ∧ 0 ≤ pr.2 ∧ pr.2 < (s0.Nsph : ℤ)) ∧
    (¬(ndim = 3 ∧ ¬(box.z_boundary_lhs = "open" ∧ box.z_boundary_rhs = "open")) →
      s3 = s2) := by
  intro s1 s2 s3
  obtain ⟨x1, x2, x3, wx, hwx, hxprop⟩ :=
    xPassGhost_spec nNew tghost grange box t fuel s0.Nsph hv (sbgpInit s0) rfl
      (by simp [sbgpInit])
  obtain ⟨y1, y2, y3, y4⟩ :=
    yPassGhost_spec ndim nNew tghost grange box t fuel s0.Nsph hv s1 x1
  obtain ⟨z1, z2, z3, z4⟩ :=
    zPassGhost_spec ndim nNew tghost grange box t fuel s0.Nsph hv s2 y1
  refine ⟨?_, x1, x2, ?_, y1, ?_, y4, ?_, z4⟩
  · unfold searchBoundaryGhostParticles
    rw [if_neg hno]
    rfl
  · intro pr hpr
    rw [hwx] at hpr
    simp only [sbgpInit, List.nil_append] at hpr
    exact hxprop pr hpr
  · intro hy
    obtain ⟨hnt, w, hw, hprop⟩ := y3 hy
    exact ⟨hnt, w, hw, hprop⟩
  · intro hz
    obtain ⟨hnt, w, hw, hprop⟩ := z3 hz
    exact ⟨hnt, w, hw, hprop⟩

/-- The concrete one-leaf tree has well-formed particle chains. -/
theorem tW_valid : treeIndicesValid tW gW.Nsph := by
  constructor
  · intro c
    right
    constructor <;> norm_num [tW, cellW, gW]
  · intro i
    left
    norm_num [tW]

/-- C1 witness: the y-block conclusion at a concrete three-dimensional
configuration with periodic boundaries. -/
theorem searchBoundaryGhosts_c1_witness :
    ¬ allOpen boxW ∧ treeIndicesValid tW gW.Nsph ∧
    ((yPassGhost 3 nW 0 1 boxW tW 2 (xPassGhost nW 0 1 boxW tW 2 (sbgpInit gW))).Ntot =
        (yPassGhost 3 nW 0 1 boxW tW 2 (xPassGhost nW 0 1 boxW tW 2 (sbgpInit gW))).Nsph +
          (yPassGhost 3 nW 0 1 boxW tW 2 (xPassGhost nW 0 1 boxW tW 2 (sbgpInit gW))).Nghost ∧
      ∃ w, (yPassGhost 3 nW 0 1 boxW tW 2 (xPassGhost nW 0 1 boxW tW 2 (sbgpInit gW))).trace =
          (xPassGhost nW 0 1 boxW tW 2 (sbgpInit gW)).trace ++ w ++
            scanTrace Axis.ay (xPassGhost nW 0 1 boxW tW 2 (sbgpInit gW)).Nsph
              ((xPassGhost nW 0 1 boxW tW 2 (sbgpInit gW)).Ntot -
                (xPassGhost nW 0 1 boxW tW 2 (sbgpInit gW)).Nsph) ∧
        ∀ pr ∈ w, pr.1 = Axis.ay ∧ 0 ≤ pr.2 ∧ pr.2 < (gW.Nsph : ℤ)) :=
  ⟨by decide, tW_valid,
   (searchBoundaryGhosts_c1 3 nW 0 1 boxW tW 2 gW (by decide)
      tW_valid).2.2.2.2.2.1 (by decide)⟩
